import Mathlib

/-!
Verification of the Trackzio antiques scraping pipeline
(`pipeline/step1_scrape.py` and `pipeline/step2_clean.py`).

Python strings are embedded as `List Char`; Python `None`-able values as
`Option`; Python floats produced by the price parser as `ℚ` (every value the
parser produces is an exact decimal).  Each definition mirrors one function or
loop of the source.
-/

namespace Trackzio

/-- Python strings are modelled as lists of characters. -/
abbrev PyStr := List Char

/-- ASCII lower-casing of one character, the effect of Python `str.lower()` on
the ASCII range. -/
def asciiLower (c : Char) : Char :=
  if c.isUpper then Char.ofNat (c.toNat + 32) else c

/-- Model of Python `str.lower()` (ASCII range). -/
def pyLower (s : PyStr) : PyStr := s.map asciiLower

/-- Model of Python `str.strip()`: drop whitespace from both ends. -/
def pyStrip (s : PyStr) : PyStr :=
  ((s.dropWhile Char.isWhitespace).reverse.dropWhile Char.isWhitespace).reverse

/-- Does `s` start with the pattern `pat`? (Python `str.startswith`). -/
def hasLead (s pat : PyStr) : Bool :=
  match s, pat with
  | _, [] => true
  | [], _ :: _ => false
  | c :: s2, p :: ps => c == p && hasLead s2 ps

/-- Does `pat` occur as a contiguous substring of `s`? (Python `in`). -/
def containsSeq (s pat : PyStr) : Bool :=
  match s with
  | [] => hasLead [] pat
  | _ :: rest => hasLead s pat || containsSeq rest pat

-- ------------------------------------------------------------------
-- step2_clean.py: category normalization
-- ------------------------------------------------------------------

def sOther : PyStr := "other".data
def sFurnitureKey : PyStr := "Furniture".data
def sFurniture : PyStr := "furniture".data
def sCeramicsKey : PyStr := "Ceramics".data
def sCeramics : PyStr := "ceramics".data
def sDecorativeKey : PyStr := "Decorative Art".data
def sDecorative : PyStr := "decorative_art".data
def sSilverKey : PyStr := "Silver".data
def sSilver : PyStr := "silver".data
def sJewelleryKey : PyStr := "Jewellery".data
def sJewellery : PyStr := "jewellery".data
def sLightingKey : PyStr := "Lighting".data
def sLighting : PyStr := "lighting".data

/-- The fixed `CATEGORY_LOOKUP` table of `step2_clean.py`, as the function
`label ↦ CATEGORY_LOOKUP.get(label, "other")`. -/
def CATEGORY_LOOKUP (s : PyStr) : PyStr :=
  if s = sFurnitureKey then sFurniture
  else if s = sCeramicsKey then sCeramics
  else if s = sDecorativeKey then sDecorative
  else if s = sSilverKey then sSilver
  else if s = sJewelleryKey then sJewellery
  else if s = sLightingKey then sLighting
  else sOther

/-- `normalize_category` of `step2_clean.py`: `None`/empty maps to `"other"`,
otherwise the trimmed label is looked up in `CATEGORY_LOOKUP` with default
`"other"`. -/
def normalize_category (category : Option PyStr) : PyStr :=
  match category with
  | none => sOther
  | some s => if s = [] then sOther else CATEGORY_LOOKUP (pyStrip s)

-- ------------------------------------------------------------------
-- step2_clean.py: description cleaning
-- ------------------------------------------------------------------

/-- Whitespace-run collapsing, the effect of `re.sub(r"\s+", " ", text)`.
The boolean argument records whether the previous input character was
whitespace (in which case further whitespace is absorbed into the same
single output space). -/
def collapseAux : Bool → PyStr → PyStr
  | _, [] => []
  | prevWs, c :: rest =>
    if c.isWhitespace then
      if prevWs then collapseAux true rest
      else ' ' :: collapseAux true rest
    else c :: collapseAux false rest

/-- Model of `re.sub(r"\s+", " ", text)`: every maximal whitespace run becomes
a single space. -/
def collapseWs (s : PyStr) : PyStr := collapseAux false s

/-- `clean_description` of `step2_clean.py`. -/
def clean_description (text : Option PyStr) : Option PyStr :=
  match text with
  | none => none
  | some s =>
    if s = [] then none
    else
      let s2 := pyStrip (collapseWs s)
      if s2.length < 20 then none else some s2

-- ------------------------------------------------------------------
-- step2_clean.py: price parsing
-- ------------------------------------------------------------------

def sPoa : PyStr := "poa".data

/-- Characters matched by the regex class `[\d,.]`. -/
def isPriceChar (c : Char) : Bool := c.isDigit || c == ',' || c == '.'

/-- Big-endian numeric value of a list of ASCII digit characters
(the value Python's `float` assigns to the integer part of its input). -/
def digitsToNat (l : PyStr) : ℕ :=
  l.foldl (fun a c => 10 * a + (c.toNat - 48)) 0

/-- Number of characters after the first `'.'` of `l` (0 if there is none). -/
def fracLen (l : PyStr) : ℕ := ((l.dropWhile (fun c => c != '.')).drop 1).length

/-- Is `l` a string Python's `float()` accepts, given that `l` only ever
consists of digits and dots here: at most one dot and at least one digit. -/
def validFloat (l : PyStr) : Bool :=
  Nat.ble (l.count '.') 1 && l.any Char.isDigit && l.all (fun c => c.isDigit || c == '.')

/-- Model of Python `float()` on the digit/dot strings the price parser feeds
it, returning the exact decimal value as a rational. -/
def floatOfChars (l : PyStr) : Option ℚ :=
  if validFloat l then
    some (mkRat (digitsToNat (l.filter Char.isDigit)) (10 ^ fracLen l))
  else none

/-- `parse_price_value` of `step2_clean.py`: lower-case, reject on a `"poa"`
marker, take the first maximal run matching `([\d,.]+)`, strip commas, and
parse as a float; every failure yields `none`. -/
def parse_price_value (price_text : Option PyStr) : Option ℚ :=
  match price_text with
  | none => none
  | some s =>
    if s = [] then none
    else
      let t := pyLower s
      if containsSeq t sPoa then none
      else
        let t2 := t.dropWhile (fun c => !isPriceChar c)
        if t2 = [] then none
        else floatOfChars ((t2.takeWhile isPriceChar).filter (fun c => c != ','))

-- ------------------------------------------------------------------
-- step2_clean.py: dedup key and the cleaning pipeline
-- ------------------------------------------------------------------

/-- One raw record, as written by `step1_scrape.py` and re-read (via `.get`)
by `step2_clean.py`. -/
structure RawItem where
  source_url : Option PyStr
  item_title : Option PyStr
  category : Option PyStr
  description_raw : Option PyStr
  images : List PyStr
  listed_price : Option PyStr
  currency : Option PyStr
  seller_location : Option PyStr
deriving DecidableEq

/-- One cleaned record, as built in `main` of `step2_clean.py`. -/
structure CleanItem where
  source_url : Option PyStr
  item_title : Option PyStr
  category_raw : Option PyStr
  description_raw : Option PyStr
  listed_price_raw : Option PyStr
  currency : Option PyStr
  seller_location : Option PyStr
  images : List PyStr
  category_normalized : PyStr
  description_clean : Option PyStr
  price_value : Option ℚ
deriving DecidableEq

def sColons : PyStr := "::".data

/-- Python `x or ""` on an optional string. -/
def orEmpty (x : Option PyStr) : PyStr := match x with | none => [] | some s => s

/-- `build_dedupe_key` of `step2_clean.py`: first 40 characters of the
lower-cased then stripped title, `"::"`, then the stripped raw price text. -/
def build_dedupe_key (item : RawItem) : PyStr :=
  (pyStrip (pyLower (orEmpty item.item_title))).take 40
    ++ sColons ++ pyStrip (orEmpty item.listed_price)

/-- The record constructed per surviving item in `main` of `step2_clean.py`. -/
def cleanRecord (item : RawItem) : CleanItem :=
  { source_url := item.source_url
    item_title := item.item_title
    category_raw := item.category
    description_raw := item.description_raw
    listed_price_raw := item.listed_price
    currency := item.currency
    seller_location := item.seller_location
    images := item.images
    category_normalized := normalize_category item.category
    description_clean := clean_description item.description_raw
    price_value := parse_price_value item.listed_price }

/-- The dedup loop of `main` in `step2_clean.py`: `seen` holds the dedup keys
already encountered; an item whose key is in `seen` is skipped, otherwise its
key is added and its cleaned record emitted. -/
def cleanAux : List PyStr → List RawItem → List CleanItem
  | _, [] => []
  | seen, item :: rest =>
    let k := build_dedupe_key item
    if k ∈ seen then cleanAux seen rest
    else cleanRecord item :: cleanAux (k :: seen) rest

/-- The cleaning pipeline of `step2_clean.py` (`main`), from the raw record
list to the cleaned record list. -/
def cleanItems (raw : List RawItem) : List CleanItem := cleanAux [] raw

/-- Generic first-occurrence-per-key filter with an explicit seen-set, the
shape shared by the dedup loop of `step2_clean.py` and by Python's
`dict.fromkeys` deduplication in `step1_scrape.py`. -/
def keepFirsts {α : Type} (k : α → PyStr) : List PyStr → List α → List α
  | _, [] => []
  | seen, a :: rest =>
    if k a ∈ seen then keepFirsts k seen rest
    else a :: keepFirsts k (k a :: seen) rest

/-- Index-based characterisation of first-occurrence filtering: keep the
element at position `i` exactly when no earlier position carries the same
key.  This is the specification-side reading of the dedup invariants. -/
def firstOccs {α : Type} (k : α → PyStr) (l : List α) : List α :=
  (l.enum.filter (fun p => !((l.take p.1).any (fun q => k q == k p.2)))).map (fun p => p.2)

-- ------------------------------------------------------------------
-- step1_scrape.py: image collection on one item page
-- ------------------------------------------------------------------

/-- One `<img>` element, with its `src` and lazy-load `data-src` attributes. -/
structure ImgTag where
  src : Option PyStr
  dataSrc : Option PyStr
deriving DecidableEq

/-- `img.get("src") or img.get("data-src")` — Python `or` falls through on
`None` and on the empty string. -/
def tagSrc (t : ImgTag) : Option PyStr :=
  match t.src with
  | some s => if s = [] then t.dataSrc else some s
  | none => t.dataSrc

def sCdnHost : PyStr := "images.antiquesatlas.com".data
def sSlashes : PyStr := "//".data
def sHttps : PyStr := "https:".data

/-- The per-tag body of the image collection loop of `step1_scrape.py`
(lines 146–155): skip absent/empty sources, rewrite protocol-relative URLs
to HTTPS, and keep the result only if it contains the CDN substring. -/
def candidateUrl (t : ImgTag) : Option PyStr :=
  match tagSrc t with
  | none => none
  | some s =>
    if s = [] then none
    else
      let s2 := if hasLead s sSlashes then sHttps ++ s else s
      if containsSeq s2 sCdnHost then some s2 else none

/-- The `image_urls` list accumulated by the loop, before deduplication. -/
def imageStream (tags : List ImgTag) : List PyStr := tags.filterMap candidateUrl

/-- `list(dict.fromkeys(image_urls))[:5]` applied to the accumulated list:
first-occurrence dedup, then cap at 5 entries. -/
def collectImages (tags : List ImgTag) : List PyStr :=
  (keepFirsts (fun s => s) [] (imageStream tags)).take 5

/-- Scan `s` for the first occurrence of `pat` and return what follows it. -/
def afterMarker (pat : PyStr) : PyStr → Option PyStr
  | [] => if hasLead [] pat then some [] else none
  | c :: rest =>
    if hasLead (c :: rest) pat then some ((c :: rest).drop pat.length)
    else afterMarker pat rest

def sSchemeSep : PyStr := "://".data

/-- Modelled from the spec: the host component of a URL — what stands between
the `"://"` scheme separator (or the start, for scheme-less URLs) and the
next `/`, `:` or `?`.  The source has no such function; the claim about
host-based filtering is checked against this reading. -/
def urlHost (s : PyStr) : PyStr :=
  (match afterMarker sSchemeSep s with
   | some r => r
   | none => s).takeWhile (fun c => c != '/' && c != ':' && c != '?')

-- ------------------------------------------------------------------
-- step1_scrape.py: the category walk and the collection run
-- ------------------------------------------------------------------

def BASE_SITE_URL : PyStr := "https://www.antiques-atlas.com".data
def MAX_ITEMS_PER_CATEGORY : ℕ := 30
def MAX_PAGES_TO_SCAN : ℕ := 30

/-- The fields the item-page extraction produces (lines 97–171 of
`step1_scrape.py`).  The HTML parsing itself is outside the embedding; a fetch
is abstracted as `PyStr → Option RawFields`, `none` standing for a raised
exception during the fetch/extraction of that item. -/
structure RawFields where
  item_title : Option PyStr
  description_raw : Option PyStr
  images : List PyStr
  listed_price : Option PyStr
  seller_location : Option PyStr
deriving DecidableEq

/-- One entry of `collected_items`. -/
structure WalkRecord where
  source_url : PyStr
  category : PyStr
  fields : RawFields
deriving DecidableEq

structure LinksResult where
  records : List WalkRecord
  visited : List PyStr
  count : ℕ
deriving DecidableEq

structure WalkResult where
  records : List WalkRecord
  visited : List PyStr
  count : ℕ
  pagesFetched : List ℕ
deriving DecidableEq

/-- The inner `for link in item_links` loop (lines 71–179): stop once the cap
is reached, skip empty hrefs, skip visited URLs, mark a URL visited before
fetching, and on a successful fetch append a record and bump the count (a
failed fetch is logged and skipped, leaving the URL marked visited). -/
def processLinks (fetch : PyStr → Option RawFields) (catName : PyStr) (cap : ℕ) :
    List PyStr → ℕ → List PyStr → LinksResult
  | [], count, visited => ⟨[], visited, count⟩
  | link :: rest, count, visited =>
    if cap ≤ count then ⟨[], visited, count⟩
    else if link = [] then processLinks fetch catName cap rest count visited
    else
      let url := BASE_SITE_URL ++ link
      if url ∈ visited then processLinks fetch catName cap rest count visited
      else
        match fetch url with
        | some fields =>
          let r := processLinks fetch catName cap rest (count + 1) (url :: visited)
          ⟨⟨url, catName, fields⟩ :: r.records, r.visited, r.count⟩
        | none => processLinks fetch catName cap rest count (url :: visited)

/-- The `while items_collected < MAX_ITEMS_PER_CATEGORY and page_number <=
MAX_PAGES_TO_SCAN` loop (lines 57–181).  `rem` counts the pages still allowed
by the page-scan limit; `pages n` is the list of item hrefs the listing page
`n` yields; a page yielding no links ends the walk. -/
def walkPages (fetch : PyStr → Option RawFields) (pages : ℕ → List PyStr)
    (catName : PyStr) (cap : ℕ) :
    ℕ → ℕ → ℕ → List PyStr → WalkResult
  | 0, _, count, visited => ⟨[], visited, count, []⟩
  | rem + 1, page, count, visited =>
    if cap ≤ count then ⟨[], visited, count, []⟩
    else
      let links := pages page
      if links = [] then ⟨[], visited, count, [page]⟩
      else
        let r1 := processLinks fetch catName cap links count visited
        let r2 := walkPages fetch pages catName cap rem (page + 1) r1.count r1.visited
        ⟨r1.records ++ r2.records, r2.visited, r2.count, page :: r2.pagesFetched⟩

/-- One category's walk, started at page 1 with zero items collected, under
the configured caps. -/
def walkCategory (fetch : PyStr → Option RawFields) (pages : ℕ → List PyStr)
    (catName : PyStr) (visited : List PyStr) : WalkResult :=
  walkPages fetch pages catName MAX_ITEMS_PER_CATEGORY MAX_PAGES_TO_SCAN 1 0 visited

/-- The outer `for category_name, category_path in CATEGORY_PATHS.items()`
loop: run each category's walk in order, threading the run-wide visited set,
and concatenate all records. -/
def runAll (fetch : PyStr → Option RawFields) :
    List (PyStr × (ℕ → List PyStr)) → List PyStr → List WalkRecord × List PyStr
  | [], visited => ([], visited)
  | (nm, pages) :: rest, visited =>
    let w := walkCategory fetch pages nm visited
    let r := runAll fetch rest w.visited
    (w.records ++ r.1, r.2)

/-- The inner link loop with the item cap removed: the discovery order of
items, for stating which items are "the earliest discovered". -/
def discoveryLinks (fetch : PyStr → Option RawFields) (catName : PyStr) :
    List PyStr → List PyStr → List WalkRecord × List PyStr
  | [], visited => ([], visited)
  | link :: rest, visited =>
    if link = [] then discoveryLinks fetch catName rest visited
    else
      let url := BASE_SITE_URL ++ link
      if url ∈ visited then discoveryLinks fetch catName rest visited
      else
        match fetch url with
        | some fields =>
          let r := discoveryLinks fetch catName rest (url :: visited)
          (⟨url, catName, fields⟩ :: r.1, r.2)
        | none => discoveryLinks fetch catName rest (url :: visited)

/-- The page loop with the item cap removed (the page-scan limit and the
empty-page stop remain): enumerates every discoverable item in page order
then link order. -/
def discoveryPages (fetch : PyStr → Option RawFields) (pages : ℕ → List PyStr)
    (catName : PyStr) : ℕ → ℕ → List PyStr → List WalkRecord × List PyStr
  | 0, _, visited => ([], visited)
  | rem + 1, page, visited =>
    let links := pages page
    if links = [] then ([], visited)
    else
      let r1 := discoveryLinks fetch catName links visited
      let r2 := discoveryPages fetch pages catName rem (page + 1) r1.2
      (r1.1 ++ r2.1, r2.2)

/-- All items a category's pages expose to the walk (unvisited, successfully
fetchable, reachable before an empty page or the page-scan limit), in
discovery order. -/
def discovered (fetch : PyStr → Option RawFields) (pages : ℕ → List PyStr)
    (catName : PyStr) (visited : List PyStr) : List WalkRecord :=
  (discoveryPages fetch pages catName MAX_PAGES_TO_SCAN 1 visited).1

-- ------------------------------------------------------------------
-- Rendering a produced price value back to text (for the idempotence claim)
-- ------------------------------------------------------------------

/-- Little-endian decimal digits of `n`; fuel-bounded structural recursion
(`fuel ≥ n` suffices for correctness). -/
def natDigitsAux : ℕ → ℕ → List ℕ
  | 0, _ => []
  | fuel + 1, n => if n = 0 then [] else n % 10 :: natDigitsAux fuel (n / 10)

def digitChar (d : ℕ) : Char := Char.ofNat (48 + d)

/-- Decimal rendering of a natural number. -/
def natRepr (n : ℕ) : PyStr :=
  if n = 0 then ['0'] else (natDigitsAux n n).reverse.map digitChar

/-- Left-pad with zero digits to `d` characters. -/
def padZeros (d : ℕ) (l : PyStr) : PyStr := List.replicate (d - l.length) '0' ++ l

/-- Smallest exponent `d` (at most `den`) with `den ∣ 10 ^ d`, when one
exists. -/
def findExp (den : ℕ) : Option ℕ :=
  (List.range (den + 1)).find? (fun d => 10 ^ d % den == 0)

/-- The textual form of a produced price value: Python's `str()` on a
nonnegative float whose value is an exact decimal, in plain positional
notation — integer part, a dot, and the (minimal) fraction digits, with a
single `0` fraction digit when the value is integral. -/
def renderValue (q : ℚ) : PyStr :=
  match findExp q.den with
  | none => []
  | some d =>
    let m := (q * 10 ^ d).num.toNat
    if d = 0 then natRepr m ++ ".0".data
    else natRepr (m / 10 ^ d) ++ '.' :: padZeros d (natRepr (m % 10 ^ d))

/-- The well-spacedness property enjoyed by collapsed text: every whitespace
character is a plain space and no two adjacent characters are both
whitespace. -/
def SpacedOk (l : PyStr) : Prop :=
  (∀ c ∈ l, c.isWhitespace = true → c = ' ') ∧
    l.Chain' (fun a b => ¬(a.isWhitespace = true ∧ b.isWhitespace = true))

-- ------------------------------------------------------------------
-- Concrete strings and records used in the stated properties
-- ------------------------------------------------------------------

def sPrice1250 : PyStr := "£1,250.00".data
def sPOA : PyStr := "POA".data
def sPriceOnApp : PyStr := "Price on application".data
def sContact : PyStr := "contact for price".data
def sBadFloat : PyStr := "1.2.3".data
def sDescRaw : PyStr := "A fine   Georgian oak side table".data
def sDescClean : PyStr := "A fine Georgian oak side table".data

def sEvil : PyStr := "https://evil.example/images.antiquesatlas.com/pic.jpg".data
def sGoodCdn : PyStr := "https://images.antiquesatlas.com/pic.jpg".data

/-- Is an optional string Python-falsy here: absent or empty? -/
def nullEmpty (x : Option PyStr) : Bool :=
  match x with
  | none => true
  | some s => s == []

/-- The dedup key recomputed from the fields a `CleanItem` retains verbatim
(`item_title` and `listed_price_raw` are copied unchanged from the raw
record, so this agrees with `build_dedupe_key` of the origin record). -/
def keyOfClean (r : CleanItem) : PyStr :=
  (pyStrip (pyLower (orEmpty r.item_title))).take 40
    ++ sColons ++ pyStrip (orEmpty r.listed_price_raw)

def urlChair1 : PyStr := "https://www.antiques-atlas.com/antique/chair-one".data
def urlChair2 : PyStr := "https://www.antiques-atlas.com/antique/chair-two".data
def urlTable : PyStr := "https://www.antiques-atlas.com/antique/oak-table".data

def itemChair1 : RawItem :=
  ⟨some urlChair1, some "Victorian Chair".data, some "Furniture".data, none, [],
    some "£100".data, some "GBP".data, none⟩

def itemChair2 : RawItem :=
  ⟨some urlChair2, some " VICTORIAN CHAIR".data, some "Furniture".data, none, [],
    some " £100 ".data, some "GBP".data, none⟩

def itemTable : RawItem :=
  ⟨some urlTable, some "Oak Table".data, some "Furniture".data, none, [],
    some "£250".data, some "GBP".data, none⟩

def rawDup : List RawItem := [itemChair1, itemChair2, itemTable]

def itemNullA : RawItem :=
  ⟨some "https://www.antiques-atlas.com/antique/mystery-a".data, none,
    some "Silver".data, none, [], none, some "GBP".data, none⟩

def itemNullB : RawItem :=
  ⟨some "https://www.antiques-atlas.com/antique/mystery-b".data, some [],
    some "Ceramics".data, none, [], some [], some "GBP".data, none⟩

def rawNulls : List RawItem := [itemNullA, itemNullB]

def imgU1rel : PyStr := "//images.antiquesatlas.com/a1.jpg".data
def imgU1 : PyStr := "https://images.antiquesatlas.com/a1.jpg".data
def imgU2 : PyStr := "https://images.antiquesatlas.com/a2.jpg".data
def imgU3 : PyStr := "https://images.antiquesatlas.com/a3.jpg".data
def imgU4 : PyStr := "https://images.antiquesatlas.com/a4.jpg".data
def imgU5 : PyStr := "https://images.antiquesatlas.com/a5.jpg".data
def imgU6 : PyStr := "https://images.antiquesatlas.com/a6.jpg".data

/-- Eight CDN-matching image tags: one protocol-relative, one reached via the
lazy-load attribute, and two exact duplicates (after the HTTPS rewrite). -/
def imgTagsEx : List ImgTag :=
  [⟨some imgU1rel, none⟩, ⟨some imgU2, none⟩, ⟨none, some imgU1⟩, ⟨some imgU3, none⟩,
   ⟨some imgU4, none⟩, ⟨some imgU2, none⟩, ⟨some imgU5, none⟩, ⟨some imgU6, none⟩]

def sLinkP1 : PyStr := "/antique/item-p1".data
def sLinkP2 : PyStr := "/antique/item-p2".data
def sLinkP4 : PyStr := "/antique/item-p4".data

/-- A fetch oracle for which every item fetch succeeds (with empty fields). -/
def fetchAllOk : PyStr → Option RawFields := fun _ => some ⟨none, none, [], none, none⟩

/-- A category whose listing has one item on each of pages 1 and 2, nothing
on page 3, and items again on later pages (which must never be reached). -/
def pagesStop3 : ℕ → List PyStr := fun n =>
  if n = 3 then [] else if n = 1 then [sLinkP1] else if n = 2 then [sLinkP2] else [sLinkP4]

/-- Fifty distinct item links (distinct lengths), all on page 1. -/
def linkList50 : List PyStr := (List.range 50).map (fun i => List.replicate (i + 1) 'x')

/-- A category exposing 50 discoverable items on its first page. -/
def pagesFifty : ℕ → List PyStr := fun n => if n = 1 then linkList50 else []

-- ------------------------------------------------------------------
-- Basic lemmas about the string helpers
-- ------------------------------------------------------------------

/-- ASCII lower-casing never turns a non-price character (not a digit, comma
or dot) into a price character. -/
theorem asciiLower_nonPrice (c : Char) (h : isPriceChar c = false) :
    isPriceChar (asciiLower c) = false := by
  unfold asciiLower
  by_cases hu : c.isUpper
  · simp only [hu, if_true]
    have hb : (65 ≤ c.val ∧ c.val ≤ 90) := by simpa [Char.isUpper] using hu
    have ha : 65 ≤ c.toNat := by
      have := hb.1
      simp only [UInt32.le_def, BitVec.le_def] at this
      simpa [Char.toNat, UInt32.toNat] using this
    have hc : c.toNat ≤ 90 := by
      have := hb.2
      simp only [UInt32.le_def, BitVec.le_def] at this
      simpa [Char.toNat, UInt32.toNat] using this
    set n := c.toNat with hn
    interval_cases n <;> decide
  · simpa [hu] using h

theorem dropWhile_dropWhile (p : Char → Bool) (l : PyStr) :
    (l.dropWhile p).dropWhile p = l.dropWhile p := by
  induction l with
  | nil => rfl
  | cons a l ih =>
    by_cases hp : p a
    · simpa [List.dropWhile_cons, hp] using ih
    · simp [List.dropWhile_cons, hp]

theorem head?_dropWhile_false (p : Char → Bool) (l : PyStr) (c : Char)
    (h : (l.dropWhile p).head? = some c) : p c = false := by
  induction l with
  | nil => simp at h
  | cons a l ih =>
    by_cases hp : p a
    · exact ih (by simpa [List.dropWhile_cons, hp] using h)
    · rw [List.dropWhile_cons, if_neg (by simpa using hp)] at h
      simp only [List.head?_cons, Option.some.injEq] at h
      subst h
      simpa using hp

theorem dropWhile_eq_self_of_head? (p : Char → Bool) (l : PyStr)
    (h : ∀ c, l.head? = some c → p c = false) : l.dropWhile p = l := by
  cases l with
  | nil => rfl
  | cons a l => simp [List.dropWhile_cons, h a rfl]

/-- `str.strip()` is idempotent. -/
theorem pyStrip_idem (s : PyStr) : pyStrip (pyStrip s) = pyStrip s := by
  have hAhead := head?_dropWhile_false Char.isWhitespace s
  unfold pyStrip
  generalize hA : s.dropWhile Char.isWhitespace = A at hAhead ⊢
  generalize hB : A.reverse.dropWhile Char.isWhitespace = B
  have h1 : B.reverse.dropWhile Char.isWhitespace = B.reverse := by
    apply dropWhile_eq_self_of_head?
    intro c hc
    rw [List.head?_reverse] at hc
    have hBne : B ≠ [] := by
      intro hnil
      rw [hnil] at hc
      simp at hc
    rcases List.dropWhile_suffix (l := A.reverse) (p := Char.isWhitespace) with ⟨t0, ht0⟩
    rw [hB] at ht0
    have h2 : A.reverse.getLast? = some c := by
      rw [← ht0, List.getLast?_append_of_ne_nil t0 hBne]
      exact hc
    rw [List.getLast?_reverse] at h2
    exact hAhead c h2
  rw [h1, List.reverse_reverse, ← hB, dropWhile_dropWhile]

/-- The category lookup only ever returns one of the six canonical
identifiers or the `"other"` fallback. -/
theorem CATEGORY_LOOKUP_mem (s : PyStr) :
    CATEGORY_LOOKUP s ∈
      [sFurniture, sCeramics, sDecorative, sSilver, sJewellery, sLighting, sOther] := by
  unfold CATEGORY_LOOKUP
  split_ifs <;> simp

-- ------------------------------------------------------------------
-- Claim C4: price parsing
-- ------------------------------------------------------------------

/-- Claim C4: `parse_price_value` is total on null-or-string input (it is a
total function into `Option`), and: `"£1,250.00"` parses to `1250.0`,
`"POA"` and `"Price on application"` give `null`, the empty string and
`null` give `null`, any text with no digits, commas or decimal points gives
`null`, and a failing final numeric parse (two decimal points) gives `null`
instead of raising. -/
theorem claim4_price_parsing :
    parse_price_value (some sPrice1250) = some 1250 ∧
    parse_price_value (some sPOA) = none ∧
    parse_price_value (some sPriceOnApp) = none ∧
    parse_price_value (some []) = none ∧
    parse_price_value none = none ∧
    parse_price_value (some sBadFloat) = none ∧
    (∀ s : PyStr, s.all (fun c => !isPriceChar c) → parse_price_value (some s) = none) := by
  refine ⟨by decide, by decide, by decide, rfl, rfl, by decide, ?_⟩
  intro s hall
  by_cases hs : s = []
  · simp [parse_price_value, hs]
  · have ht2 : (pyLower s).dropWhile (fun c => !isPriceChar c) = [] := by
      rw [List.dropWhile_eq_nil_iff]
      intro x hx
      simp only [pyLower, List.mem_map] at hx
      obtain ⟨c, hc, rfl⟩ := hx
      have hcp : isPriceChar c = false := by
        simpa using List.all_eq_true.mp hall c hc
      simp [asciiLower_nonPrice c hcp]
    simp [parse_price_value, hs, ht2]

/-- Witness for Claim C4 at the concrete no-digit input of the spec. -/
theorem claim4_witness : parse_price_value (some sContact) = none :=
  claim4_price_parsing.2.2.2.2.2.2 sContact (by decide)

-- ------------------------------------------------------------------
-- Claim C5: category totality
-- ------------------------------------------------------------------

/-- Claim C5: `normalize_category` is total — for every input (null, empty or
any string) the result is one of the six canonical identifiers or the
`"other"` fallback, never anything else — and matching is exact after
trimming: the result of a label equals the result of its trimmed form. -/
theorem claim5_category_totality :
    (∀ c : Option PyStr, normalize_category c ∈
      [sFurniture, sCeramics, sDecorative, sSilver, sJewellery, sLighting, sOther]) ∧
    (∀ s : PyStr, normalize_category (some s) = normalize_category (some (pyStrip s))) := by
  constructor
  · intro c
    cases c with
    | none => simp [normalize_category, sOther]
    | some s =>
      by_cases hs : s = []
      · simp [normalize_category, hs, sOther]
      · simpa [normalize_category, hs] using CATEGORY_LOOKUP_mem (pyStrip s)
  · intro s
    by_cases hs : s = []
    · simp [normalize_category, hs, pyStrip]
    · by_cases hst : pyStrip s = []
      · have h1 : normalize_category (some s) = CATEGORY_LOOKUP (pyStrip s) := by
          simp [normalize_category, hs]
        rw [h1, hst]
        decide
      · simp [normalize_category, hs, hst, pyStrip_idem]


-- ------------------------------------------------------------------
-- First-occurrence deduplication: generic lemmas
-- ------------------------------------------------------------------

theorem contains_iff_mem (seen : List PyStr) (x : PyStr) :
    seen.contains x = true ↔ x ∈ seen := by
  simp [List.contains]

/-- The seen-set loop keeps exactly the entries whose key is neither in the
initial seen-set nor carried by an earlier entry. -/
theorem keepFirsts_eq {α : Type} (k : α → PyStr) :
    ∀ (l : List α) (seen : List PyStr),
      keepFirsts k seen l =
        (l.enum.filter (fun p => !(seen.contains (k p.2)) &&
            !((l.take p.1).any (fun q => k q == k p.2)))).map (fun p => p.2) := by
  intro l
  induction l with
  | nil => intro seen; rfl
  | cons a rest ih =>
    intro seen
    rw [List.enum_cons', List.filter_cons, List.filter_map]
    by_cases hk : seen.contains (k a)
    · have hmem : k a ∈ seen := (contains_iff_mem seen (k a)).mp hk
      have hc : (!(seen.contains (k ((0:ℕ), a).2)) &&
          !(((a :: rest).take ((0:ℕ), a).1).any (fun q => k q == k ((0:ℕ), a).2))) = false := by
        simp [hmem]
      rw [hc]
      simp only [Bool.false_eq_true, if_false]
      have hfun : ∀ p ∈ rest.enum,
          ((fun p => !(seen.contains (k p.2)) &&
            !(((a :: rest).take p.1).any (fun q => k q == k p.2))) ∘ Prod.map (· + 1) id) p =
          (fun p => !(seen.contains (k p.2)) &&
            !((rest.take p.1).any (fun q => k q == k p.2))) p := by
        intro p _
        simp only [Function.comp_apply, Prod.map_apply, id_eq, List.take_succ_cons, List.any_cons]
        by_cases he : k a = k p.2
        · have hmem2 : k p.2 ∈ seen := (contains_iff_mem _ _).mp (by rw [← he]; exact hk)
          simp [hmem2]
        · have hne : (k a == k p.2) = false := by simp [he]
          simp [hne]
      rw [List.filter_congr hfun]
      simp only [keepFirsts, if_pos hmem]
      rw [ih seen, List.map_map]
      simp
    · have hmem : k a ∉ seen := fun h => hk ((contains_iff_mem seen (k a)).mpr h)
      have hc : (!(seen.contains (k ((0:ℕ), a).2)) &&
          !(((a :: rest).take ((0:ℕ), a).1).any (fun q => k q == k ((0:ℕ), a).2))) = true := by
        simp [hmem]
      rw [hc, if_pos rfl]
      have hfun : ∀ p ∈ rest.enum,
          ((fun p => !(seen.contains (k p.2)) &&
            !(((a :: rest).take p.1).any (fun q => k q == k p.2))) ∘ Prod.map (· + 1) id) p =
          (fun p => !((k a :: seen).contains (k p.2)) &&
            !((rest.take p.1).any (fun q => k q == k p.2))) p := by
        intro p _
        simp only [Function.comp_apply, Prod.map_apply, id_eq, List.take_succ_cons, List.any_cons,
          List.contains_cons]
        by_cases he : k a = k p.2
        · simp [he, Ne.symm, beq_iff_eq]
        · have hne : (k a == k p.2) = false := by simp [he]
          have hne2 : (k p.2 == k a) = false := by simp [Ne.symm he]
          simp [hne, hne2]
      rw [List.filter_congr hfun]
      simp only [keepFirsts, if_neg hmem]
      rw [ih (k a :: seen), List.map_cons, List.map_map]
      simp

/-- With an empty seen-set, the loop computes exactly the index-based
first-occurrence filter. -/
theorem keepFirsts_nil_eq_firstOccs {α : Type} (k : α → PyStr) (l : List α) :
    keepFirsts k [] l = firstOccs k l := by
  rw [keepFirsts_eq]
  unfold firstOccs
  congr 1

theorem cleanAux_eq_map (seen : List PyStr) (raw : List RawItem) :
    cleanAux seen raw = (keepFirsts build_dedupe_key seen raw).map cleanRecord := by
  induction raw generalizing seen with
  | nil => rfl
  | cons item rest ih =>
    simp only [cleanAux, keepFirsts]
    by_cases hk : build_dedupe_key item ∈ seen
    · simp [hk, ih]
    · simp [hk, ih]

/-- The cleaning pipeline is the first-occurrence filter on dedup keys,
followed by per-record construction. -/
theorem cleanItems_eq_firstOccs (raw : List RawItem) :
    cleanItems raw = (firstOccs build_dedupe_key raw).map cleanRecord := by
  rw [cleanItems, cleanAux_eq_map, keepFirsts_nil_eq_firstOccs]

/-- A record at position `j` whose dedup key already occurred at an earlier
position `i` is never kept by the first-occurrence filter. -/
theorem later_duplicate_dropped (raw : List RawItem) (i j : ℕ)
    (hi : i < raw.length) (hj : j < raw.length) (hij : i < j)
    (hkey : build_dedupe_key (raw.get ⟨i, hi⟩) = build_dedupe_key (raw.get ⟨j, hj⟩)) :
    (raw.enum.filter (fun p => !((raw.take p.1).any
        (fun q => build_dedupe_key q == build_dedupe_key p.2)))).all
      (fun p => !(p.1 == j)) = true := by
  rw [List.all_eq_true]
  intro p hp
  rw [List.mem_filter] at hp
  obtain ⟨hp1, hp2⟩ := hp
  by_cases hpj : p.1 = j
  · exfalso
    have hget : raw[p.1]? = some p.2 := List.mem_enum_iff_getElem?.mp hp1
    rw [hpj, List.getElem?_eq_getElem hj] at hget
    have hp2j : p.2 = raw.get ⟨j, hj⟩ := by
      injection hget with h
      rw [List.get_eq_getElem]
      exact h.symm
    have hmemtake : raw.get ⟨i, hi⟩ ∈ raw.take p.1 := by
      rw [hpj]
      have h1 := List.getElem_take' raw hi hij
      rw [List.get_eq_getElem, h1]
      exact List.getElem_mem _
    have hany : ((raw.take p.1).any
        (fun q => build_dedupe_key q == build_dedupe_key p.2)) = true := by
      rw [List.any_eq_true]
      refine ⟨raw.get ⟨i, hi⟩, hmemtake, ?_⟩
      rw [beq_iff_eq, hp2j, hkey]
    rw [hany] at hp2
    simp at hp2
  · simp [hpj]


-- ------------------------------------------------------------------
-- Claim C3: deduplication keeps only the first record per key
-- ------------------------------------------------------------------

/-- Claim C3: for every input sequence of raw records, the output is exactly
the per-key first occurrences (in input order) mapped through the record
constructor — so of any two records with equal dedup keys (first 40 chars of
the lower-cased trimmed title plus trimmed raw price text) only the earlier
one produces a CleanItemRecord, every later one is dropped entirely, and the
output order is the input order minus the dropped records. -/
theorem claim3_dedup (raw : List RawItem) :
    cleanItems raw = (firstOccs build_dedupe_key raw).map cleanRecord ∧
    (∀ i j (hi : i < raw.length) (hj : j < raw.length), i < j →
      build_dedupe_key (raw.get ⟨i, hi⟩) = build_dedupe_key (raw.get ⟨j, hj⟩) →
      (raw.enum.filter (fun p => !((raw.take p.1).any
          (fun q => build_dedupe_key q == build_dedupe_key p.2)))).all
        (fun p => !(p.1 == j)) = true) :=
  ⟨cleanItems_eq_firstOccs raw,
   fun i j hi hj hij hkey => later_duplicate_dropped raw i j hi hj hij hkey⟩

/-- Witness for Claim C3: in a concrete run with two key-equal records, the
later one (position 1) is dropped. -/
theorem claim3_witness :
    (rawDup.enum.filter (fun p => !((rawDup.take p.1).any
        (fun q => build_dedupe_key q == build_dedupe_key p.2)))).all
      (fun p => !(p.1 == 1)) = true :=
  (claim3_dedup rawDup).2 0 1 (by decide) (by decide) (by decide) (by decide)

-- ------------------------------------------------------------------
-- Claim C9: image list construction
-- ------------------------------------------------------------------

/-- The keys of the entries kept by the seen-set loop are distinct and
disjoint from the initial seen-set. -/
theorem keepFirsts_map_nodup {α : Type} (k : α → PyStr) :
    ∀ (l : List α) (seen : List PyStr),
      ((keepFirsts k seen l).map k).Nodup ∧
      ∀ x ∈ (keepFirsts k seen l).map k, x ∉ seen := by
  intro l
  induction l with
  | nil => intro seen; constructor <;> simp [keepFirsts]
  | cons a rest ih =>
    intro seen
    simp only [keepFirsts]
    by_cases hk : k a ∈ seen
    · simpa [hk] using ih seen
    · rw [if_neg hk]
      obtain ⟨ihn, ihs⟩ := ih (k a :: seen)
      refine ⟨?_, ?_⟩
      · rw [List.map_cons, List.nodup_cons]
        exact ⟨fun hmem => (ihs (k a) hmem) (List.mem_cons_self _ _), ihn⟩
      · intro x hx
        rw [List.map_cons, List.mem_cons] at hx
        rcases hx with rfl | hx
        · exact hk
        · exact fun hxs => (ihs x hx) (List.mem_cons_of_mem _ hxs)

/-- Claim C9: for every item page the image list has at most 5 entries, no
duplicates, and equals the first 5 first-occurrences (in first-seen order) of
the rewritten-and-filtered source stream; on the concrete page with 8
CDN-matching tags containing 2 exact duplicates (one arising from a
protocol-relative URL rewritten to HTTPS, one via the lazy-load fallback) it
yields exactly 5 URLs in first-seen order. -/
theorem claim9_images :
    (∀ tags : List ImgTag, (collectImages tags).length ≤ 5) ∧
    (∀ tags : List ImgTag, (collectImages tags).Nodup) ∧
    (∀ tags : List ImgTag,
      collectImages tags = (firstOccs (fun s => s) (imageStream tags)).take 5) ∧
    collectImages imgTagsEx = [imgU1, imgU2, imgU3, imgU4, imgU5] := by
  refine ⟨?_, ?_, ?_, by decide⟩
  · intro tags
    exact List.length_take_le _ _
  · intro tags
    have h := (keepFirsts_map_nodup (fun s => s) (imageStream tags) []).1
    rw [List.map_id'] at h
    exact (List.take_sublist _ _).nodup h
  · intro tags
    unfold collectImages
    rw [keepFirsts_nil_eq_firstOccs]

-- ------------------------------------------------------------------
-- Claim C2: which image URLs are kept
-- ------------------------------------------------------------------

/-- Counterexample to Claim C2: a URL on a foreign host that merely contains
the CDN name in its path is kept by the extraction loop, so "kept iff the
host component is the CDN host" is false. -/
theorem claim2_counterexample :
    urlHost sEvil ≠ sCdnHost ∧ collectImages [⟨some sEvil, none⟩] = [sEvil] :=
  ⟨by decide, by decide⟩

/-- Claim C2 (amended): a candidate image URL is kept if and only if, after
the protocol-relative-to-HTTPS rewrite, it contains
`"images.antiquesatlas.com"` as a substring anywhere — a substring test, not
a host comparison. -/
theorem claim2_amended (s : PyStr) (hs : s ≠ []) :
    collectImages [⟨some s, none⟩] ≠ [] ↔
      containsSeq (if hasLead s sSlashes then sHttps ++ s else s) sCdnHost = true := by
  by_cases hc : containsSeq (if hasLead s sSlashes then sHttps ++ s else s) sCdnHost
  · simp [collectImages, imageStream, candidateUrl, tagSrc, hs, hc, keepFirsts]
  · simp [collectImages, imageStream, candidateUrl, tagSrc, hs, hc, keepFirsts]

/-- Witness for the amended Claim C2: a true CDN URL is kept. -/
theorem claim2_witness : collectImages [⟨some sGoodCdn, none⟩] ≠ [] :=
  (claim2_amended sGoodCdn (by decide)).mpr (by decide)


-- ------------------------------------------------------------------
-- Claim C10: title-less, price-less records share the constant key "::"
-- ------------------------------------------------------------------

theorem orEmpty_eq_nil (x : Option PyStr) (h : nullEmpty x = true) : orEmpty x = [] := by
  cases x with
  | none => rfl
  | some s =>
    simp only [nullEmpty, beq_iff_eq] at h
    simp [orEmpty, h]

theorem build_dedupe_key_null (item : RawItem) (h1 : nullEmpty item.item_title = true)
    (h2 : nullEmpty item.listed_price = true) : build_dedupe_key item = sColons := by
  unfold build_dedupe_key
  rw [orEmpty_eq_nil _ h1, orEmpty_eq_nil _ h2]
  decide

theorem keyOfClean_null (r : CleanItem) (h1 : nullEmpty r.item_title = true)
    (h2 : nullEmpty r.listed_price_raw = true) : keyOfClean r = sColons := by
  unfold keyOfClean
  rw [orEmpty_eq_nil _ h1, orEmpty_eq_nil _ h2]
  decide

/-- Over any run of the cleaning loop, at most one surviving record carries
any single dedup key (0 if that key was already seen). -/
theorem cleanAux_key_countP (k0 : PyStr) (raw : List RawItem) :
    ∀ seen : List PyStr,
      ((cleanAux seen raw).countP (fun r => keyOfClean r == k0)) ≤
        (if k0 ∈ seen then 0 else 1) := by
  induction raw with
  | nil => intro seen; simp [cleanAux]
  | cons item rest ih =>
    intro seen
    simp only [cleanAux]
    by_cases hk : build_dedupe_key item ∈ seen
    · rw [if_pos hk]
      exact ih seen
    · rw [if_neg hk]
      rw [List.countP_cons]
      have hclean : keyOfClean (cleanRecord item) = build_dedupe_key item := rfl
      by_cases he : build_dedupe_key item = k0
      · rw [show keyOfClean (cleanRecord item) = k0 from hclean.trans he]
        simp only [beq_self_eq_true, if_pos]
        have hin : k0 ∈ build_dedupe_key item :: seen := he ▸ List.mem_cons_self _ _
        have hrest := ih (build_dedupe_key item :: seen)
        rw [if_pos hin] at hrest
        have hnot : k0 ∉ seen := fun hmem => hk (he ▸ hmem)
        rw [if_neg hnot]
        omega
      · rw [hclean]
        have hbeq : (build_dedupe_key item == k0) = false := by simp [he]
        rw [hbeq]
        simp only [Bool.false_eq_true, if_false]
        have hrest := ih (build_dedupe_key item :: seen)
        by_cases hks : k0 ∈ seen
        · rw [if_pos (List.mem_cons_of_mem _ hks)] at hrest
          rw [if_pos hks]
          omega
        · have hnotc : k0 ∉ build_dedupe_key item :: seen := by
            rw [List.mem_cons]
            push_neg
            exact ⟨fun h => he h.symm, hks⟩
          rw [if_neg hnotc] at hrest
          rw [if_neg hks]
          omega

/-- Claim C10: any record with null-or-empty title and null-or-empty price
text gets the constant dedup key `"::"`; consequently at most one such record
survives cleaning, and for any two of them the later one is always dropped,
regardless of its (possibly distinct) source URL. -/
theorem claim10_null_records :
    (∀ item : RawItem, nullEmpty item.item_title = true →
      nullEmpty item.listed_price = true → build_dedupe_key item = sColons) ∧
    (∀ raw : List RawItem,
      (cleanItems raw).countP
        (fun r => nullEmpty r.item_title && nullEmpty r.listed_price_raw) ≤ 1) ∧
    (∀ (raw : List RawItem) i j (hi : i < raw.length) (hj : j < raw.length), i < j →
      nullEmpty (raw.get ⟨i, hi⟩).item_title = true →
      nullEmpty (raw.get ⟨i, hi⟩).listed_price = true →
      nullEmpty (raw.get ⟨j, hj⟩).item_title = true →
      nullEmpty (raw.get ⟨j, hj⟩).listed_price = true →
      (raw.enum.filter (fun p => !((raw.take p.1).any
          (fun q => build_dedupe_key q == build_dedupe_key p.2)))).all
        (fun p => !(p.1 == j)) = true) := by
  refine ⟨build_dedupe_key_null, ?_, ?_⟩
  · intro raw
    have hmono : (cleanItems raw).countP
          (fun r => nullEmpty r.item_title && nullEmpty r.listed_price_raw)
        ≤ (cleanItems raw).countP (fun r => keyOfClean r == sColons) := by
      apply List.countP_mono_left
      intro r _ hr
      simp only [Bool.and_eq_true] at hr
      simp only [beq_iff_eq]
      exact keyOfClean_null r hr.1 hr.2
    have hb := cleanAux_key_countP sColons raw []
    rw [if_neg (List.not_mem_nil _)] at hb
    exact le_trans hmono (by simpa [cleanItems] using hb)
  · intro raw i j hi hj hij h1 h2 h3 h4
    apply later_duplicate_dropped raw i j hi hj hij
    rw [build_dedupe_key_null _ h1 h2, build_dedupe_key_null _ h3 h4]

/-- Witness for Claim C10: of two distinct-URL records that both lack title
and price, the later one (position 1) is dropped. -/
theorem claim10_witness :
    (rawNulls.enum.filter (fun p => !((rawNulls.take p.1).any
        (fun q => build_dedupe_key q == build_dedupe_key p.2)))).all
      (fun p => !(p.1 == 1)) = true :=
  claim10_null_records.2.2 rawNulls 0 1 (by decide) (by decide) (by decide)
    (by decide) (by decide) (by decide) (by decide)


-- ------------------------------------------------------------------
-- Claim C7: pagination termination
-- ------------------------------------------------------------------

/-- If some page `p` at or beyond the current page yields no links, the walk
never fetches a page beyond `p`. -/
theorem walkPages_stops_at_empty (fetch : PyStr → Option RawFields)
    (pages : ℕ → List PyStr) (catName : PyStr) (cap : ℕ) (p : ℕ) (hp : pages p = []) :
    ∀ (rem page count : ℕ) (visited : List PyStr), page ≤ p →
      ∀ q ∈ (walkPages fetch pages catName cap rem page count visited).pagesFetched,
        q ≤ p := by
  intro rem
  induction rem with
  | zero =>
    intro page count visited hpage q hq
    simp [walkPages] at hq
  | succ rem ih =>
    intro page count visited hpage q hq
    simp only [walkPages] at hq
    by_cases hcap : cap ≤ count
    · rw [if_pos hcap] at hq
      simp at hq
    · rw [if_neg hcap] at hq
      by_cases hlinks : pages page = []
      · rw [if_pos hlinks] at hq
        simp at hq
        omega
      · rw [if_neg hlinks] at hq
        simp only [List.mem_cons] at hq
        rcases hq with rfl | hq
        · exact hpage
        · have hne : page ≠ p := fun h => hlinks (h ▸ hp)
          exact ih (page + 1) _ _ (by omega) q hq

/-- Claim C7: for every category walk, if the listing page at some page
number `p` (at least 1) yields zero item links, the walk stops there: every
fetched page number is at most `p` — pages beyond the empty page, and in
particular the max-page-scan limit, are never reached.  This is the normal
end of the loop, not an error path. -/
theorem claim7_pagination (fetch : PyStr → Option RawFields)
    (pages : ℕ → List PyStr) (catName : PyStr) (visited : List PyStr) (p : ℕ)
    (hp1 : 1 ≤ p) (hp : pages p = []) :
    ((walkCategory fetch pages catName visited).pagesFetched.all
      (fun q => decide (q ≤ p))) = true := by
  rw [List.all_eq_true]
  intro q hq
  simp only [decide_eq_true_eq]
  exact walkPages_stops_at_empty fetch pages catName MAX_ITEMS_PER_CATEGORY p hp
    MAX_PAGES_TO_SCAN 1 0 visited hp1 q hq


/-- Witness for Claim C7: with page 3 empty, the walk fetches exactly pages
1, 2 and 3 and stops well before the 30-page scan limit. -/
theorem claim7_witness :
    (walkCategory fetchAllOk pagesStop3 sFurnitureKey []).pagesFetched = [1, 2, 3] ∧
    ((walkCategory fetchAllOk pagesStop3 sFurnitureKey []).pagesFetched.all
      (fun q => decide (q ≤ 3))) = true :=
  ⟨by decide, claim7_pagination fetchAllOk pagesStop3 sFurnitureKey [] 3 (by decide) rfl⟩


-- ------------------------------------------------------------------
-- Claim C8: run-wide uniqueness of collected source URLs
-- ------------------------------------------------------------------

theorem processLinks_inv (fetch : PyStr → Option RawFields) (catName : PyStr) (cap : ℕ) :
    ∀ (links : List PyStr) (count : ℕ) (visited : List PyStr),
      (∀ u ∈ visited, u ∈ (processLinks fetch catName cap links count visited).visited) ∧
      (∀ rec ∈ (processLinks fetch catName cap links count visited).records,
        rec.source_url ∈ (processLinks fetch catName cap links count visited).visited ∧
          rec.source_url ∉ visited) ∧
      ((processLinks fetch catName cap links count visited).records.map
        (fun r => r.source_url)).Nodup := by
  intro links
  induction links with
  | nil =>
    intro count visited
    exact ⟨fun u hu => hu, by simp [processLinks], by simp [processLinks]⟩
  | cons link rest ih =>
    intro count visited
    by_cases hcap : cap ≤ count
    · simp only [processLinks, if_pos hcap]
      exact ⟨fun u hu => hu, by simp, by simp⟩
    · by_cases hlink : link = []
      · simp only [processLinks, if_neg hcap, if_pos hlink]
        exact ih count visited
      · by_cases hvis : (BASE_SITE_URL ++ link) ∈ visited
        · simp only [processLinks, if_neg hcap, if_neg hlink, if_pos hvis]
          exact ih count visited
        · cases hf : fetch (BASE_SITE_URL ++ link) with
          | none =>
            simp only [processLinks, if_neg hcap, if_neg hlink, if_neg hvis, hf]
            obtain ⟨ha, hb, hc⟩ := ih count ((BASE_SITE_URL ++ link) :: visited)
            refine ⟨fun u hu => ha u (List.mem_cons_of_mem _ hu), fun rec hrec => ?_, hc⟩
            obtain ⟨h1, h2⟩ := hb rec hrec
            exact ⟨h1, fun hmem => h2 (List.mem_cons_of_mem _ hmem)⟩
          | some fields =>
            simp only [processLinks, if_neg hcap, if_neg hlink, if_neg hvis, hf]
            obtain ⟨ha, hb, hc⟩ := ih (count + 1) ((BASE_SITE_URL ++ link) :: visited)
            refine ⟨?_, ?_, ?_⟩
            · intro u hu
              exact ha u (List.mem_cons_of_mem _ hu)
            · intro rec hrec
              rw [List.mem_cons] at hrec
              rcases hrec with rfl | hrec
              · exact ⟨ha _ (List.mem_cons_self _ _), hvis⟩
              · obtain ⟨h1, h2⟩ := hb rec hrec
                exact ⟨h1, fun hmem => h2 (List.mem_cons_of_mem _ hmem)⟩
            · rw [List.map_cons, List.nodup_cons]
              refine ⟨fun hmem => ?_, hc⟩
              rw [List.mem_map] at hmem
              obtain ⟨rec, hrec, hurl⟩ := hmem
              exact (hb rec hrec).2 (hurl ▸ List.mem_cons_self _ _)

theorem walkPages_inv (fetch : PyStr → Option RawFields) (pages : ℕ → List PyStr)
    (catName : PyStr) (cap : ℕ) :
    ∀ (rem page count : ℕ) (visited : List PyStr),
      (∀ u ∈ visited, u ∈ (walkPages fetch pages catName cap rem page count visited).visited) ∧
      (∀ rec ∈ (walkPages fetch pages catName cap rem page count visited).records,
        rec.source_url ∈ (walkPages fetch pages catName cap rem page count visited).visited ∧
          rec.source_url ∉ visited) ∧
      ((walkPages fetch pages catName cap rem page count visited).records.map
        (fun r => r.source_url)).Nodup := by
  intro rem
  induction rem with
  | zero =>
    intro page count visited
    exact ⟨fun u hu => hu, by simp [walkPages], by simp [walkPages]⟩
  | succ rem ih =>
    intro page count visited
    by_cases hcap : cap ≤ count
    · simp only [walkPages, if_pos hcap]
      exact ⟨fun u hu => hu, by simp, by simp⟩
    · by_cases hlinks : pages page = []
      · simp only [walkPages, if_neg hcap, if_pos hlinks]
        exact ⟨fun u hu => hu, by simp, by simp⟩
      · simp only [walkPages, if_neg hcap, if_neg hlinks]
        obtain ⟨pa, pb, pc⟩ := processLinks_inv fetch catName cap (pages page) count visited
        obtain ⟨wa, wb, wc⟩ := ih (page + 1)
          (processLinks fetch catName cap (pages page) count visited).count
          (processLinks fetch catName cap (pages page) count visited).visited
        refine ⟨?_, ?_, ?_⟩
        · exact fun u hu => wa u (pa u hu)
        · intro rec hrec
          rw [List.mem_append] at hrec
          rcases hrec with hrec | hrec
          · exact ⟨wa _ (pb rec hrec).1, (pb rec hrec).2⟩
          · exact ⟨(wb rec hrec).1, fun hmem => (wb rec hrec).2 (pa _ hmem)⟩
        · rw [List.map_append, List.nodup_append]
          refine ⟨pc, wc, ?_⟩
          intro a ha hb2
          rw [List.mem_map] at ha hb2
          obtain ⟨r1, hr1, hu1⟩ := ha
          obtain ⟨r2, hr2, hu2⟩ := hb2
          exact (wb r2 hr2).2 (hu2 ▸ hu1 ▸ (pb r1 hr1).1)

theorem runAll_inv (fetch : PyStr → Option RawFields) :
    ∀ (cats : List (PyStr × (ℕ → List PyStr))) (visited : List PyStr),
      (∀ u ∈ visited, u ∈ (runAll fetch cats visited).2) ∧
      (∀ rec ∈ (runAll fetch cats visited).1,
        rec.source_url ∈ (runAll fetch cats visited).2 ∧ rec.source_url ∉ visited) ∧
      (((runAll fetch cats visited).1.map (fun r => r.source_url)).Nodup) := by
  intro cats
  induction cats with
  | nil =>
    intro visited
    exact ⟨fun u hu => hu, by simp [runAll], by simp [runAll]⟩
  | cons cat rest ih =>
    intro visited
    obtain ⟨nm, pages⟩ := cat
    simp only [runAll]
    obtain ⟨pa, pb, pc⟩ := walkPages_inv fetch pages nm MAX_ITEMS_PER_CATEGORY
      MAX_PAGES_TO_SCAN 1 0 visited
    obtain ⟨wa, wb, wc⟩ := ih (walkCategory fetch pages nm visited).visited
    refine ⟨?_, ?_, ?_⟩
    · exact fun u hu => wa u (pa u hu)
    · intro rec hrec
      rw [List.mem_append] at hrec
      rcases hrec with hrec | hrec
      · exact ⟨wa _ (pb rec hrec).1, (pb rec hrec).2⟩
      · exact ⟨(wb rec hrec).1, fun hmem => (wb rec hrec).2 (pa _ hmem)⟩
    · rw [List.map_append, List.nodup_append]
      refine ⟨pc, wc, ?_⟩
      intro a ha hb2
      rw [List.mem_map] at ha hb2
      obtain ⟨r1, hr1, hu1⟩ := ha
      obtain ⟨r2, hr2, hu2⟩ := hb2
      exact (wb r2 hr2).2 (hu2 ▸ hu1 ▸ (pb r1 hr1).1)

/-- Claim C8: across all categories of a single collection run (started with
an empty visited set), the source URL of every collected record is unique —
an item reachable from several categories or listing pages is recorded at
most once, by the walk that first discovered it (the record carries that
walk's category name) — and every collected URL is in the final visited set
(URLs are inserted into the visited set at discovery, before the fetch). -/
theorem claim8_visited_unique (fetch : PyStr → Option RawFields)
    (cats : List (PyStr × (ℕ → List PyStr))) :
    (((runAll fetch cats []).1.map (fun r => r.source_url)).Nodup) ∧
    (∀ rec ∈ (runAll fetch cats []).1, rec.source_url ∈ (runAll fetch cats []).2) := by
  obtain ⟨_, hb, hc⟩ := runAll_inv fetch cats []
  exact ⟨hc, fun rec hrec => (hb rec hrec).1⟩


-- ------------------------------------------------------------------
-- Claim C6: per-category cap enforcement
-- ------------------------------------------------------------------

theorem walkPages_cap (fetch : PyStr → Option RawFields) (pages : ℕ → List PyStr)
    (catName : PyStr) (cap rem page count : ℕ) (visited : List PyStr)
    (h : cap ≤ count) :
    (walkPages fetch pages catName cap rem page count visited).records = [] := by
  cases rem <;> simp [walkPages, h]

theorem processLinks_take (fetch : PyStr → Option RawFields) (catName : PyStr) (cap : ℕ) :
    ∀ (links : List PyStr) (count : ℕ) (visited : List PyStr),
      (processLinks fetch catName cap links count visited).records =
        (discoveryLinks fetch catName links visited).1.take (cap - count) ∧
      (processLinks fetch catName cap links count visited).count =
        count + min (discoveryLinks fetch catName links visited).1.length (cap - count) ∧
      ((discoveryLinks fetch catName links visited).1.length < cap - count →
        (processLinks fetch catName cap links count visited).visited =
          (discoveryLinks fetch catName links visited).2) := by
  intro links
  induction links with
  | nil =>
    intro count visited
    refine ⟨by simp [processLinks, discoveryLinks], by simp [processLinks, discoveryLinks], ?_⟩
    intro _
    simp [processLinks, discoveryLinks]
  | cons link rest ih =>
    intro count visited
    by_cases hcap : cap ≤ count
    · have hsub : cap - count = 0 := by omega
      simp only [processLinks, if_pos hcap, hsub]
      refine ⟨by simp, by simp, ?_⟩
      intro hlen
      omega
    · by_cases hlink : link = []
      · simp only [processLinks, discoveryLinks, if_neg hcap, if_pos hlink]
        exact ih count visited
      · by_cases hvis : (BASE_SITE_URL ++ link) ∈ visited
        · simp only [processLinks, discoveryLinks, if_neg hcap, if_neg hlink, if_pos hvis]
          exact ih count visited
        · cases hf : fetch (BASE_SITE_URL ++ link) with
          | none =>
            simp only [processLinks, discoveryLinks, if_neg hcap, if_neg hlink, if_neg hvis, hf]
            exact ih count ((BASE_SITE_URL ++ link) :: visited)
          | some fields =>
            simp only [processLinks, discoveryLinks, if_neg hcap, if_neg hlink, if_neg hvis, hf]
            obtain ⟨ha, hb, hc⟩ := ih (count + 1) ((BASE_SITE_URL ++ link) :: visited)
            refine ⟨?_, ?_, ?_⟩
            · cases hdm : cap - count with
              | zero => omega
              | succ m =>
                rw [List.take_succ_cons, ha, show cap - (count + 1) = m by omega]
            · rw [hb]
              simp only [List.length_cons]
              omega
            · intro hlen
              simp only [List.length_cons] at hlen
              exact hc (by omega)

theorem walkPages_take (fetch : PyStr → Option RawFields) (pages : ℕ → List PyStr)
    (catName : PyStr) (cap : ℕ) :
    ∀ (rem page count : ℕ) (visited : List PyStr),
      (walkPages fetch pages catName cap rem page count visited).records =
        (discoveryPages fetch pages catName rem page visited).1.take (cap - count) := by
  intro rem
  induction rem with
  | zero =>
    intro page count visited
    simp [walkPages, discoveryPages]
  | succ rem ih =>
    intro page count visited
    by_cases hcap : cap ≤ count
    · have hz : cap - count = 0 := by omega
      rw [walkPages_cap fetch pages catName cap (rem + 1) page count visited hcap, hz,
        List.take_zero]
    · by_cases hlinks : pages page = []
      · simp [walkPages, discoveryPages, if_neg hcap, if_pos hlinks]
      · simp only [walkPages, discoveryPages, if_neg hcap, if_neg hlinks]
        obtain ⟨ha, hb, hc⟩ := processLinks_take fetch catName cap (pages page) count visited
        by_cases hlen :
            (discoveryLinks fetch catName (pages page) visited).1.length < cap - count
        · have hrecs : (processLinks fetch catName cap (pages page) count visited).records =
              (discoveryLinks fetch catName (pages page) visited).1 := by
            rw [ha, List.take_of_length_le (by omega)]
          have hcnt : (processLinks fetch catName cap (pages page) count visited).count =
              count + (discoveryLinks fetch catName (pages page) visited).1.length := by
            rw [hb, Nat.min_eq_left (Nat.le_of_lt hlen)]
          have hvis2 : (processLinks fetch catName cap (pages page) count visited).visited =
              (discoveryLinks fetch catName (pages page) visited).2 := hc hlen
          rw [hrecs, hcnt, hvis2, ih (page + 1)
            (count + (discoveryLinks fetch catName (pages page) visited).1.length)
            (discoveryLinks fetch catName (pages page) visited).2]
          rw [List.take_append_eq_append_take,
            List.take_of_length_le (Nat.le_of_lt hlen), Nat.sub_sub]
        · push_neg at hlen
          have hcnt : (processLinks fetch catName cap (pages page) count visited).count = cap := by
            rw [hb, Nat.min_eq_right hlen]
            omega
          rw [ha, hcnt, walkPages_cap fetch pages catName cap rem (page + 1) cap _ (le_refl cap),
            List.append_nil, List.take_append_of_le_length hlen]

/-- Claim C6: if a category's pages expose at least 50 discoverable items
(unvisited, successfully fetchable, reached before an empty page or the page
limit), the capped walk collects exactly `MAX_ITEMS_PER_CATEGORY = 30`
records, and they are precisely the 30 earliest-discovered items in page
order then link order (the walk's records are always the cap-length prefix
of the discovery order, so link scanning stops contributing once the cap is
reached). -/
theorem claim6_cap_enforcement (fetch : PyStr → Option RawFields)
    (pages : ℕ → List PyStr) (catName : PyStr) (visited : List PyStr)
    (h : 50 ≤ (discovered fetch pages catName visited).length) :
    (walkCategory fetch pages catName visited).records =
      (discovered fetch pages catName visited).take MAX_ITEMS_PER_CATEGORY ∧
    (walkCategory fetch pages catName visited).records.length = MAX_ITEMS_PER_CATEGORY := by
  have h1 := walkPages_take fetch pages catName MAX_ITEMS_PER_CATEGORY
    MAX_PAGES_TO_SCAN 1 0 visited
  have heq : (walkCategory fetch pages catName visited).records =
      (discovered fetch pages catName visited).take MAX_ITEMS_PER_CATEGORY := by
    rw [walkCategory, h1, Nat.sub_zero, discovered]
  refine ⟨heq, ?_⟩
  rw [heq, List.length_take]
  have h30 : MAX_ITEMS_PER_CATEGORY = 30 := rfl
  omega

/-- Witness for Claim C6: a category with 50 discoverable items on page 1
yields exactly 30 records. -/
theorem claim6_witness :
    50 ≤ (discovered fetchAllOk pagesFifty sFurnitureKey []).length ∧
    (walkCategory fetchAllOk pagesFifty sFurnitureKey []).records.length
      = MAX_ITEMS_PER_CATEGORY :=
  ⟨by decide, (claim6_cap_enforcement fetchAllOk pagesFifty sFurnitureKey [] (by decide)).2⟩


-- ------------------------------------------------------------------
-- Claim C1: idempotence of the per-field normalizers
-- ------------------------------------------------------------------

/-- Whatever the input, the result of `normalize_category` lies in the fixed
result set. -/
theorem normalize_category_mem (c : Option PyStr) :
    normalize_category c ∈
      [sFurniture, sCeramics, sDecorative, sSilver, sJewellery, sLighting, sOther] := by
  cases c with
  | none => simp [normalize_category]
  | some s =>
    by_cases hs : s = []
    · simp [normalize_category, hs]
    · simpa [normalize_category, hs] using CATEGORY_LOOKUP_mem (pyStrip s)

/-- Re-applying `normalize_category` to any of its own outputs lands on
`"other"`: the six canonical identifiers are lower-case and the lookup keys
are the capitalised display names, so none of them matches. -/
theorem normalize_category_reapply (c : Option PyStr) :
    normalize_category (some (normalize_category c)) = sOther := by
  have h := normalize_category_mem c
  simp only [List.mem_cons, List.not_mem_nil, or_false] at h
  rcases h with h | h | h | h | h | h | h <;> rw [h] <;> decide

theorem collapseAux_spaced : ∀ l : PyStr,
    (∀ c, (collapseAux true l).head? = some c → c.isWhitespace = false) ∧
    SpacedOk (collapseAux true l) ∧ SpacedOk (collapseAux false l) := by
  intro l
  induction l with
  | nil => exact ⟨by simp [collapseAux], ⟨by simp [collapseAux], by simp [collapseAux]⟩,
      ⟨by simp [collapseAux], by simp [collapseAux]⟩⟩
  | cons c rest ih =>
    obtain ⟨ihh, ihT, ihF⟩ := ih
    by_cases hw : c.isWhitespace
    · have hT : collapseAux true (c :: rest) = collapseAux true rest := by
        simp [collapseAux, hw]
      have hF : collapseAux false (c :: rest) = ' ' :: collapseAux true rest := by
        simp [collapseAux, hw]
      refine ⟨?_, ?_, ?_⟩
      · rw [hT]; exact ihh
      · rw [hT]; exact ihT
      · rw [hF]
        constructor
        · intro x hx hxw
          rcases List.mem_cons.mp hx with rfl | hx
          · rfl
          · exact ihT.1 x hx hxw
        · rw [List.chain'_cons']
          refine ⟨?_, ihT.2⟩
          intro b hb
          intro ⟨_, hbw⟩
          rw [ihh b hb] at hbw
          exact Bool.false_ne_true hbw
    · have hT : collapseAux true (c :: rest) = c :: collapseAux false rest := by
        simp [collapseAux, hw]
      have hF : collapseAux false (c :: rest) = c :: collapseAux false rest := by
        simp [collapseAux, hw]
      have hcons : SpacedOk (c :: collapseAux false rest) := by
        constructor
        · intro x hx hxw
          rcases List.mem_cons.mp hx with rfl | hx
          · exact absurd hxw hw
          · exact ihF.1 x hx hxw
        · rw [List.chain'_cons']
          refine ⟨?_, ihF.2⟩
          intro b _
          intro ⟨hcw, _⟩
          exact hw hcw
      refine ⟨?_, ?_, ?_⟩
      · rw [hT]
        intro x hx
        simp only [List.head?_cons, Option.some.injEq] at hx
        subst hx
        simpa using hw
      · rw [hT]; exact hcons
      · rw [hF]; exact hcons

theorem collapseAux_fix : ∀ l : PyStr, SpacedOk l →
    collapseAux false l = l ∧
      ((∀ c, l.head? = some c → c.isWhitespace = false) → collapseAux true l = l) := by
  intro l
  induction l with
  | nil => exact fun _ => ⟨rfl, fun _ => rfl⟩
  | cons c rest ih =>
    intro hq
    have hqrest : SpacedOk rest :=
      ⟨fun x hx => hq.1 x (List.mem_cons_of_mem _ hx), hq.2.tail⟩
    by_cases hw : c.isWhitespace
    · have hcsp : c = ' ' := hq.1 c (List.mem_cons_self _ _) hw
      have hhead : ∀ b, rest.head? = some b → b.isWhitespace = false := by
        intro b hb
        have := (List.chain'_cons'.mp hq.2).1 b hb
        by_contra hbw
        exact this ⟨hw, by simpa using hbw⟩
      have htrue : collapseAux true rest = rest := (ih hqrest).2 hhead
      constructor
      · simp [collapseAux, hw, htrue, hcsp]
      · intro hh
        have := hh c rfl
        rw [hw] at this
        exact absurd this (by simp)
    · have hfix : collapseAux false rest = rest := (ih hqrest).1
      constructor
      · simp [collapseAux, hw, hfix]
      · intro _
        simp [collapseAux, hw, hfix]

theorem SpacedOk_dropWhile (p : Char → Bool) (l : PyStr) (h : SpacedOk l) :
    SpacedOk (l.dropWhile p) := by
  constructor
  · intro c hc
    exact h.1 c ((List.dropWhile_sublist p).subset hc)
  · obtain ⟨t, ht⟩ := List.dropWhile_suffix (p := p) (l := l)
    have h2 := h.2
    rw [← ht] at h2
    exact h2.right_of_append

theorem SpacedOk_reverse (l : PyStr) (h : SpacedOk l) : SpacedOk l.reverse := by
  constructor
  · intro c hc
    exact h.1 c (List.mem_reverse.mp hc)
  · rw [List.chain'_reverse]
    exact h.2.imp (fun a b hab => fun ⟨x, y⟩ => hab ⟨y, x⟩)

theorem SpacedOk_pyStrip (l : PyStr) (h : SpacedOk l) : SpacedOk (pyStrip l) := by
  unfold pyStrip
  exact SpacedOk_reverse _ (SpacedOk_dropWhile _ _ (SpacedOk_reverse _ (SpacedOk_dropWhile _ _ h)))

/-- `clean_description` is idempotent on its non-null outputs. -/
theorem clean_description_idem (t : Option PyStr) (s : PyStr)
    (h : clean_description t = some s) : clean_description (some s) = some s := by
  cases t with
  | none => simp [clean_description] at h
  | some t0 =>
    by_cases h0 : t0 = []
    · simp [clean_description, h0] at h
    · rw [clean_description, if_neg h0] at h
      by_cases hlen : (pyStrip (collapseWs t0)).length < 20
      · rw [if_pos hlen] at h
        exact absurd h (by simp)
      · rw [if_neg hlen] at h
        injection h with h
        subst h
        have hQ : SpacedOk (pyStrip (collapseWs t0)) :=
          SpacedOk_pyStrip _ (collapseAux_spaced t0).2.2
        have hfix : collapseWs (pyStrip (collapseWs t0)) = pyStrip (collapseWs t0) :=
          (collapseAux_fix _ hQ).1
        have hne : pyStrip (collapseWs t0) ≠ [] := by
          intro hnil
          rw [hnil] at hlen
          simp at hlen
        rw [clean_description, if_neg hne, hfix, pyStrip_idem, if_neg hlen]



theorem natDigitsAux_eq (fuel : ℕ) : ∀ n : ℕ, n ≤ fuel → natDigitsAux fuel n = Nat.digits 10 n := by
  induction fuel with
  | zero =>
    intro n h
    interval_cases n
    simp [natDigitsAux]
  | succ fuel ih =>
    intro n h
    by_cases hn : n = 0
    · simp [natDigitsAux, hn]
    · rw [natDigitsAux, if_neg hn]
      rw [Nat.digits_def' (by norm_num : (1:ℕ) < 10) (Nat.pos_of_ne_zero hn)]
      congr 1
      apply ih
      have := Nat.div_lt_self (Nat.pos_of_ne_zero hn) (by norm_num : 1 < 10)
      omega

theorem digitChar_isDigit (d : ℕ) (h : d < 10) : (digitChar d).isDigit = true := by
  interval_cases d <;> decide

theorem digitChar_val (d : ℕ) (h : d < 10) : (digitChar d).toNat - 48 = d := by
  interval_cases d <;> decide

theorem digitsToNat_acc (l : PyStr) : ∀ a : ℕ,
    l.foldl (fun a c => 10 * a + (c.toNat - 48)) a = a * 10 ^ l.length + digitsToNat l := by
  induction l with
  | nil => intro a; simp [digitsToNat]
  | cons c rest ih =>
    intro a
    rw [List.foldl_cons, ih (10 * a + (c.toNat - 48))]
    have h2 : digitsToNat (c :: rest) = (c.toNat - 48) * 10 ^ rest.length + digitsToNat rest := by
      rw [digitsToNat, List.foldl_cons, ih (10 * 0 + (c.toNat - 48))]
      ring_nf
    rw [h2, List.length_cons, pow_succ]
    ring

theorem digitsToNat_append (l1 l2 : PyStr) :
    digitsToNat (l1 ++ l2) = digitsToNat l1 * 10 ^ l2.length + digitsToNat l2 := by
  rw [digitsToNat, List.foldl_append]
  rw [show (l1.foldl (fun a c => 10 * a + (c.toNat - 48)) 0) = digitsToNat l1 from rfl]
  exact digitsToNat_acc l2 (digitsToNat l1)

theorem foldr_digits (D : List ℕ) (hD : ∀ d ∈ D, d < 10) :
    D.foldr (fun d a => 10 * a + ((digitChar d).toNat - 48)) 0 = Nat.ofDigits 10 D := by
  induction D with
  | nil => simp [Nat.ofDigits_nil]
  | cons d D ih =>
    rw [List.foldr_cons, Nat.ofDigits_cons,
      ih (fun x hx => hD x (List.mem_cons_of_mem _ hx)),
      digitChar_val d (hD d (List.mem_cons_self _ _))]
    omega

theorem digitsToNat_natRepr (n : ℕ) : digitsToNat (natRepr n) = n := by
  by_cases hn : n = 0
  · subst hn; decide
  · rw [natRepr, if_neg hn, natDigitsAux_eq n n (le_refl n)]
    rw [digitsToNat, List.foldl_map, List.foldl_reverse]
    rw [foldr_digits _ (fun d hd => Nat.digits_lt_base (by norm_num) hd)]
    exact Nat.ofDigits_digits 10 n

theorem natRepr_ne_nil (n : ℕ) : natRepr n ≠ [] := by
  by_cases hn : n = 0
  · subst hn; decide
  · rw [natRepr, if_neg hn, natDigitsAux_eq n n (le_refl n)]
    simp only [ne_eq, List.map_eq_nil_iff, List.reverse_eq_nil_iff]
    exact Nat.digits_ne_nil_iff_ne_zero.mpr hn

theorem natRepr_all_digit (n : ℕ) : ∀ c ∈ natRepr n, c.isDigit = true := by
  intro c hc
  by_cases hn : n = 0
  · subst hn
    have h0 : natRepr 0 = ['0'] := rfl
    rw [h0, List.mem_singleton] at hc
    subst hc
    decide
  · rw [natRepr, if_neg hn, natDigitsAux_eq n n (le_refl n)] at hc
    rw [List.mem_map] at hc
    obtain ⟨d, hd, rfl⟩ := hc
    rw [List.mem_reverse] at hd
    exact digitChar_isDigit d (Nat.digits_lt_base (by norm_num) hd)

theorem natRepr_len_le (b d : ℕ) (hb : b < 10 ^ d) (hd : 0 < d) :
    (natRepr b).length ≤ d := by
  by_cases hb0 : b = 0
  · subst hb0
    simpa [natRepr] using hd
  · rw [natRepr, if_neg hb0, natDigitsAux_eq b b (le_refl b)]
    rw [List.length_map, List.length_reverse]
    by_contra hcon
    push_neg at hcon
    have h1 : 10 ^ (Nat.digits 10 b).length ≤ 10 * b :=
      Nat.base_pow_length_digits_le 10 b (by norm_num) hb0
    have h2 : 10 ^ (d + 1) ≤ 10 ^ (Nat.digits 10 b).length :=
      Nat.pow_le_pow_right (by norm_num) (by omega)
    rw [pow_succ] at h2
    omega

theorem digitsToNat_replicate_zero (k : ℕ) : digitsToNat (List.replicate k '0') = 0 := by
  induction k with
  | zero => rfl
  | succ k ih =>
    rw [List.replicate_succ, digitsToNat, List.foldl_cons, digitsToNat_acc, ih]
    simp

theorem digitsToNat_padZeros (d : ℕ) (l : PyStr) :
    digitsToNat (padZeros d l) = digitsToNat l := by
  rw [padZeros, digitsToNat_append, digitsToNat_replicate_zero]
  simp

theorem length_padZeros (d : ℕ) (l : PyStr) (h : l.length ≤ d) :
    (padZeros d l).length = d := by
  rw [padZeros, List.length_append, List.length_replicate]
  omega

theorem padZeros_all_digit (d : ℕ) (l : PyStr) (h : ∀ c ∈ l, c.isDigit = true) :
    ∀ c ∈ padZeros d l, c.isDigit = true := by
  intro c hc
  rw [padZeros, List.mem_append] at hc
  rcases hc with hc | hc
  · rw [List.eq_of_mem_replicate hc]
    decide
  · exact h c hc



/-- A divisor of a power of 10 already divides the 10-power with exponent at
most the divisor itself. -/
theorem exp_bound : ∀ (e den : ℕ), 0 < den → den ∣ 10 ^ e → ∃ d, d ≤ den ∧ den ∣ 10 ^ d := by
  intro e
  induction e with
  | zero =>
    intro den hpos hdvd
    rw [pow_zero] at hdvd
    have h1 : den = 1 := Nat.dvd_one.mp hdvd
    exact ⟨0, by omega, by simp [h1]⟩
  | succ e ih =>
    intro den hpos hdvd
    obtain ⟨g, hgdvd10e, hgden, hgpos, hgcd⟩ : ∃ g, g ∣ 10 ^ e ∧ g ∣ den ∧ 0 < g ∧
        Nat.Coprime (den / g) (10 ^ e / g) :=
      ⟨Nat.gcd den (10 ^ e), Nat.gcd_dvd_right _ _, Nat.gcd_dvd_left _ _,
        Nat.gcd_pos_of_pos_left _ hpos,
        Nat.coprime_div_gcd_div_gcd (Nat.gcd_pos_of_pos_left _ hpos)⟩
    have hden_eq : den = g * (den / g) := (Nat.mul_div_cancel' hgden).symm
    have hmpos : 0 < den / g := Nat.div_pos (Nat.le_of_dvd hpos hgden) hgpos
    by_cases hm1 : den / g = 1
    · have hdeq : den = g := by rw [hden_eq, hm1, mul_one]
      exact ih den hpos (by rw [hdeq]; exact hgdvd10e)
    · obtain ⟨hh, hheq⟩ := hgdvd10e
      have hm2 : 2 ≤ den / g := by omega
      have hmd10 : den / g ∣ 10 := by
        have h3 : (10:ℕ) ^ (e + 1) = g * (hh * 10) := by
          conv_lhs => rw [pow_succ, hheq]
          ring
        have hdvd2 : g * (den / g) ∣ g * (hh * 10) := by
          rw [← hden_eq, ← h3]
          exact hdvd
        have hmdvd : den / g ∣ hh * 10 :=
          (mul_dvd_mul_iff_left (by omega : g ≠ 0)).mp hdvd2
        have hhh : hh = 10 ^ e / g := by
          rw [hheq, Nat.mul_div_cancel_left hh hgpos]
        have hcop : Nat.Coprime (den / g) hh := by
          rw [hhh]
          exact hgcd
        exact Nat.Coprime.dvd_of_dvd_mul_left hcop hmdvd
      obtain ⟨d1, hd1le, hd1dvd⟩ := ih g hgpos ⟨hh, hheq⟩
      refine ⟨d1 + 1, ?_, ?_⟩
      · have hle : g * 2 ≤ den := by
          conv_rhs => rw [hden_eq]
          exact Nat.mul_le_mul_left _ hm2
        omega
      · rw [pow_succ]
        conv_lhs => rw [hden_eq]
        exact mul_dvd_mul hd1dvd hmd10

theorem findExp_success (den e : ℕ) (hpos : 0 < den) (hdvd : den ∣ 10 ^ e) :
    ∃ d, findExp den = some d ∧ den ∣ 10 ^ d := by
  obtain ⟨d0, hd0le, hd0dvd⟩ := exp_bound e den hpos hdvd
  have hex : ∃ x, x ∈ List.range (den + 1) ∧ (10 ^ x % den == 0) = true := by
    refine ⟨d0, List.mem_range.mpr (by omega), ?_⟩
    rw [beq_iff_eq]
    exact Nat.mod_eq_zero_of_dvd hd0dvd
  have hsome : (findExp den).isSome := by
    rw [findExp, List.find?_isSome]
    simpa using hex
  obtain ⟨d, hd⟩ := Option.isSome_iff_exists.mp hsome
  refine ⟨d, hd, ?_⟩
  rw [findExp] at hd
  have hp := List.find?_some hd
  rw [beq_iff_eq] at hp
  exact Nat.dvd_of_mod_eq_zero hp



theorem asciiLower_digit (c : Char) (h : c.isDigit = true) : asciiLower c = c := by
  rw [asciiLower]
  by_cases hu : c.isUpper
  · exfalso
    have hb : (65 ≤ c.val ∧ c.val ≤ 90) := by simpa [Char.isUpper] using hu
    have hd : (48 ≤ c.val ∧ c.val ≤ 57) := by simpa [Char.isDigit] using h
    have hcon : (65 : UInt32) ≤ 57 := UInt32.le_trans hb.1 hd.2
    exact absurd hcon (by decide)
  · rw [if_neg hu]

theorem pyLower_fix (l : PyStr) (h : ∀ c ∈ l, c.isDigit = true ∨ c = '.') :
    pyLower l = l := by
  rw [pyLower]
  have h2 : ∀ c ∈ l, asciiLower c = id c := by
    intro c hc
    rcases h c hc with hd | hdot
    · exact asciiLower_digit c hd
    · rw [hdot]
      decide
  rw [List.map_congr_left h2, List.map_id]

theorem containsSeq_head_mem (pat : PyStr) (c : Char) :
    ∀ s : PyStr, containsSeq s (c :: pat) = true → c ∈ s := by
  intro s
  induction s with
  | nil => intro h; simp [containsSeq, hasLead] at h
  | cons a rest ih =>
    intro h
    rw [containsSeq, Bool.or_eq_true] at h
    rcases h with h | h
    · rw [hasLead, Bool.and_eq_true] at h
      have : a = c := by simpa [beq_iff_eq] using h.1
      rw [this]
      exact List.mem_cons_self _ _
    · exact List.mem_cons_of_mem _ (ih h)

theorem no_poa (l : PyStr) (h : ∀ c ∈ l, c.isDigit = true ∨ c = '.') :
    containsSeq l sPoa = false := by
  by_contra hcon
  rw [Bool.not_eq_false] at hcon
  have hpat : sPoa = 'p' :: "oa".data := rfl
  rw [hpat] at hcon
  have hmem := containsSeq_head_mem "oa".data 'p' l hcon
  rcases h 'p' hmem with hd | hdot
  · exact absurd hd (by decide)
  · exact absurd hdot (by decide)

theorem dropWhile_nonprice_fix (l : PyStr)
    (hhead : ∀ c, l.head? = some c → isPriceChar c = true) :
    l.dropWhile (fun c => !isPriceChar c) = l := by
  cases l with
  | nil => rfl
  | cons a rest =>
    rw [List.dropWhile_cons, if_neg]
    simp [hhead a rfl]

theorem filter_ne_comma (l : PyStr) (h : ∀ c ∈ l, c.isDigit = true ∨ c = '.') :
    l.filter (fun c => c != ',') = l := by
  rw [List.filter_eq_self]
  intro a ha
  rcases h a ha with hd | hdot
  · rw [bne_iff_ne]
    intro heq
    rw [heq] at hd
    exact absurd hd (by decide)
  · rw [hdot]
    decide

theorem dropWhile_append_of_all (p : Char → Bool) (l1 l2 : PyStr)
    (h : ∀ c ∈ l1, p c = true) :
    (l1 ++ l2).dropWhile p = l2.dropWhile p := by
  induction l1 with
  | nil => rfl
  | cons a l1 ih =>
    rw [List.cons_append, List.dropWhile_cons, if_pos (h a (List.mem_cons_self _ _))]
    exact ih (fun c hc => h c (List.mem_cons_of_mem _ hc))

theorem filter_digit_all (l : PyStr) (h : ∀ c ∈ l, c.isDigit = true) :
    l.filter Char.isDigit = l := by
  rw [List.filter_eq_self]
  exact h

theorem count_dot_zero (l : PyStr) (h : ∀ c ∈ l, c.isDigit = true) :
    l.count '.' = 0 := by
  rw [List.count_eq_zero]
  intro hmem
  have := h '.' hmem
  exact absurd this (by decide)



/-- On a nonempty string of digits and dots that starts with a price
character, the price parser defers directly to the float model. -/
theorem parse_eval_nice (s : PyStr) (hne : s ≠ [])
    (hchars : ∀ c ∈ s, c.isDigit = true ∨ c = '.')
    (hhead : ∀ c, s.head? = some c → isPriceChar c = true) :
    parse_price_value (some s) = floatOfChars s := by
  have hprice : ∀ c ∈ s, isPriceChar c = true := by
    intro c hc
    rcases hchars c hc with hd | hdot
    · simp [isPriceChar, hd]
    · rw [hdot]
      decide
  simp only [parse_price_value, if_neg hne]
  rw [pyLower_fix s hchars, no_poa s hchars]
  simp only [Bool.false_eq_true, if_false]
  rw [dropWhile_nonprice_fix s hhead]
  rw [if_neg hne]
  rw [List.takeWhile_eq_self_iff.mpr hprice]
  rw [filter_ne_comma s hchars]

theorem mul_pow_eq_intCast (q : ℚ) (d : ℕ) (hdvd : q.den ∣ 10 ^ d) :
    q * 10 ^ d = ((q.num * (10 ^ d / q.den : ℕ) : ℤ) : ℚ) := by
  have hc : (10 : ℕ) ^ d = q.den * (10 ^ d / q.den) := (Nat.mul_div_cancel' hdvd).symm
  have hden0 : ((q.den : ℚ)) ≠ 0 := Nat.cast_ne_zero.mpr q.den_nz
  have h10 : ((10 : ℚ)) ^ d = ((q.den : ℚ)) * (((10 ^ d / q.den : ℕ)) : ℚ) := by
    exact_mod_cast hc
  conv_lhs => rw [← Rat.num_div_den q, h10]
  rw [Int.cast_mul, Int.cast_natCast]
  field_simp

theorem num_toNat_cast (q : ℚ) (hq : 0 ≤ q) (d : ℕ) (hdvd : q.den ∣ 10 ^ d) :
    (((q * 10 ^ d).num.toNat : ℕ) : ℚ) = q * 10 ^ d := by
  have hnn : (0:ℤ) ≤ q.num * (10 ^ d / q.den : ℕ) :=
    mul_nonneg (Rat.num_nonneg.mpr hq) (Int.natCast_nonneg _)
  have hnum : (q * 10 ^ d).num = q.num * (10 ^ d / q.den : ℕ) := by
    rw [mul_pow_eq_intCast q d hdvd, Rat.num_intCast]
  rw [hnum]
  have htn := Int.toNat_of_nonneg hnn
  calc (((q.num * (10 ^ d / q.den : ℕ) : ℤ).toNat : ℕ) : ℚ)
      = (((q.num * (10 ^ d / q.den : ℕ) : ℤ).toNat : ℤ) : ℚ) := by push_cast; ring
    _ = ((q.num * (10 ^ d / q.den : ℕ) : ℤ) : ℚ) := by rw [htn]
    _ = q * 10 ^ d := (mul_pow_eq_intCast q d hdvd).symm



/-- Core round trip: a nonnegative rational whose denominator divides a power
of 10 — exactly the values `parse_price_value` produces — parses back from
its rendered textual form to itself. -/
theorem parse_render (q : ℚ) (hq : 0 ≤ q) (e : ℕ) (hden : q.den ∣ 10 ^ e) :
    parse_price_value (some (renderValue q)) = some q := by
  obtain ⟨d, hfind, hdvd⟩ := findExp_success q.den e q.pos hden
  have hmQ : (((q * 10 ^ d).num.toNat : ℕ) : ℚ) = q * 10 ^ d := num_toNat_cast q hq d hdvd
  have hrender : renderValue q =
      (if d = 0 then natRepr (q * 10 ^ d).num.toNat ++ ".0".data
       else natRepr ((q * 10 ^ d).num.toNat / 10 ^ d) ++
         '.' :: padZeros d (natRepr ((q * 10 ^ d).num.toNat % 10 ^ d))) := by
    rw [renderValue, hfind]
  by_cases hd0 : d = 0
  · subst hd0
    set m := (q * 10 ^ 0).num.toNat with hm_def
    have hqm : (m : ℚ) = q := by
      rw [pow_zero, mul_one] at hmQ
      exact hmQ
    have hdots : (".0".data : PyStr) = ['.', '0'] := rfl
    rw [hrender, if_pos rfl, hdots]
    have hchars : ∀ c ∈ natRepr m ++ ['.', '0'], c.isDigit = true ∨ c = '.' := by
      intro c hc
      rw [List.mem_append] at hc
      rcases hc with hc | hc
      · exact Or.inl (natRepr_all_digit m c hc)
      · rw [List.mem_cons, List.mem_singleton] at hc
        rcases hc with rfl | rfl
        · exact Or.inr rfl
        · exact Or.inl (by decide)
    have hheadp : ∀ c, (natRepr m ++ ['.', '0']).head? = some c → isPriceChar c = true := by
      intro c hc
      cases hrep : natRepr m with
      | nil => exact absurd hrep (natRepr_ne_nil m)
      | cons c0 r =>
        rw [hrep, List.cons_append, List.head?_cons, Option.some.injEq] at hc
        subst hc
        have hd1 : c0.isDigit = true :=
          natRepr_all_digit m c0 (by rw [hrep]; exact List.mem_cons_self _ _)
        simp [isPriceChar, hd1]
    have hne : natRepr m ++ ['.', '0'] ≠ [] := by
      simp
    rw [parse_eval_nice _ hne hchars hheadp]
    have hcount : (natRepr m ++ ['.', '0']).count '.' = 1 := by
      rw [List.count_append, count_dot_zero _ (natRepr_all_digit m)]
      decide
    have h1 : Nat.ble ((natRepr m ++ ['.', '0']).count '.') 1 = true := by
      rw [hcount]
      decide
    have h2 : (natRepr m ++ ['.', '0']).any Char.isDigit = true := by
      rw [List.any_eq_true]
      exact ⟨'0', List.mem_append_right _ (by decide), by decide⟩
    have h3 : (natRepr m ++ ['.', '0']).all (fun c => c.isDigit || c == '.') = true := by
      rw [List.all_eq_true]
      intro c hc
      rcases hchars c hc with hd1 | hdot
      · simp [hd1]
      · simp [hdot]
    have hvalid : validFloat (natRepr m ++ ['.', '0']) = true := by
      rw [validFloat, h1, h2, h3]
      rfl
    rw [floatOfChars, if_pos hvalid]
    have hfd : (natRepr m ++ ['.', '0']).filter Char.isDigit = natRepr m ++ ['0'] := by
      rw [List.filter_append, filter_digit_all _ (natRepr_all_digit m)]
      rfl
    have hval : digitsToNat ((natRepr m ++ ['.', '0']).filter Char.isDigit) = 10 * m := by
      rw [hfd, digitsToNat_append, digitsToNat_natRepr]
      have hz : digitsToNat ['0'] = 0 := by decide
      rw [hz]
      norm_num
      ring_nf
    have hfl : fracLen (natRepr m ++ ['.', '0']) = 1 := by
      rw [fracLen, dropWhile_append_of_all _ _ _ ?hall]
      case hall =>
        intro c hc
        have hd1 := natRepr_all_digit m c hc
        rw [bne_iff_ne]
        intro heq
        rw [heq] at hd1
        exact absurd hd1 (by decide)
      decide
    rw [hval, hfl]
    congr 1
    rw [Rat.mkRat_eq_div, ← hqm]
    push_cast
    norm_num
  · have hdpos : 0 < d := Nat.pos_of_ne_zero hd0
    set m := (q * 10 ^ d).num.toNat with hm_def
    have hpow : (0:ℕ) < 10 ^ d := pow_pos (by norm_num) d
    have hblt : m % 10 ^ d < 10 ^ d := Nat.mod_lt _ hpow
    have hlenb : (natRepr (m % 10 ^ d)).length ≤ d := natRepr_len_le _ d hblt hdpos
    have hBdig : ∀ c ∈ padZeros d (natRepr (m % 10 ^ d)), c.isDigit = true :=
      padZeros_all_digit _ _ (natRepr_all_digit _)
    have hBlen : (padZeros d (natRepr (m % 10 ^ d))).length = d := length_padZeros _ _ hlenb
    rw [hrender, if_neg hd0]
    have hchars : ∀ c ∈ natRepr (m / 10 ^ d) ++ '.' :: padZeros d (natRepr (m % 10 ^ d)),
        c.isDigit = true ∨ c = '.' := by
      intro c hc
      rw [List.mem_append, List.mem_cons] at hc
      rcases hc with hc | hc | hc
      · exact Or.inl (natRepr_all_digit _ c hc)
      · exact Or.inr hc
      · exact Or.inl (hBdig c hc)
    have hheadp : ∀ c, (natRepr (m / 10 ^ d) ++ '.' :: padZeros d (natRepr (m % 10 ^ d))).head?
        = some c → isPriceChar c = true := by
      intro c hc
      cases hrep : natRepr (m / 10 ^ d) with
      | nil => exact absurd hrep (natRepr_ne_nil _)
      | cons c0 r =>
        rw [hrep, List.cons_append, List.head?_cons, Option.some.injEq] at hc
        subst hc
        have hd1 : c0.isDigit = true :=
          natRepr_all_digit _ c0 (by rw [hrep]; exact List.mem_cons_self _ _)
        simp [isPriceChar, hd1]
    have hne : natRepr (m / 10 ^ d) ++ '.' :: padZeros d (natRepr (m % 10 ^ d)) ≠ [] := by
      simp
    rw [parse_eval_nice _ hne hchars hheadp]
    have hcount : (natRepr (m / 10 ^ d) ++ '.' :: padZeros d (natRepr (m % 10 ^ d))).count '.'
        = 1 := by
      rw [List.count_append, count_dot_zero _ (natRepr_all_digit _), List.count_cons,
        count_dot_zero _ hBdig]
      decide
    have h1 : Nat.ble ((natRepr (m / 10 ^ d) ++ '.' :: padZeros d (natRepr (m % 10 ^ d))).count '.') 1
        = true := by
      rw [hcount]
      decide
    have h2 : (natRepr (m / 10 ^ d) ++ '.' :: padZeros d (natRepr (m % 10 ^ d))).any Char.isDigit
        = true := by
      rw [List.any_eq_true]
      cases hrep : natRepr (m / 10 ^ d) with
      | nil => exact absurd hrep (natRepr_ne_nil _)
      | cons c0 r =>
        refine ⟨c0, List.mem_append_left _ (List.mem_cons_self _ _), ?_⟩
        exact natRepr_all_digit _ c0 (by rw [hrep]; exact List.mem_cons_self _ _)
    have h3 : (natRepr (m / 10 ^ d) ++ '.' :: padZeros d (natRepr (m % 10 ^ d))).all
        (fun c => c.isDigit || c == '.') = true := by
      rw [List.all_eq_true]
      intro c hc
      rcases hchars c hc with hd1 | hdot
      · simp [hd1]
      · simp [hdot]
    have hvalid : validFloat (natRepr (m / 10 ^ d) ++ '.' :: padZeros d (natRepr (m % 10 ^ d)))
        = true := by
      rw [validFloat, h1, h2, h3]
      rfl
    rw [floatOfChars, if_pos hvalid]
    have hfd : (natRepr (m / 10 ^ d) ++ '.' :: padZeros d (natRepr (m % 10 ^ d))).filter
        Char.isDigit = natRepr (m / 10 ^ d) ++ padZeros d (natRepr (m % 10 ^ d)) := by
      rw [List.filter_append, filter_digit_all _ (natRepr_all_digit _), List.filter_cons]
      rw [if_neg (by decide)]
      rw [filter_digit_all _ hBdig]
    have hval : digitsToNat ((natRepr (m / 10 ^ d) ++ '.' ::
        padZeros d (natRepr (m % 10 ^ d))).filter Char.isDigit) = m := by
      rw [hfd, digitsToNat_append, digitsToNat_natRepr, digitsToNat_padZeros,
        digitsToNat_natRepr, hBlen]
      rw [Nat.mul_comm]
      exact Nat.div_add_mod m (10 ^ d)
    have hfl : fracLen (natRepr (m / 10 ^ d) ++ '.' :: padZeros d (natRepr (m % 10 ^ d))) = d := by
      rw [fracLen, dropWhile_append_of_all _ _ _ ?hall2]
      case hall2 =>
        intro c hc
        have hd1 := natRepr_all_digit _ c hc
        rw [bne_iff_ne]
        intro heq
        rw [heq] at hd1
        exact absurd hd1 (by decide)
      rw [List.dropWhile_cons, if_neg (by decide), List.drop_one, List.tail_cons, hBlen]
    rw [hval, hfl]
    congr 1
    rw [Rat.mkRat_eq_div]
    have h10Q : (((10 ^ d : ℕ)) : ℚ) = (10:ℚ) ^ d := by push_cast; ring
    rw [h10Q]
    rw [eq_comm, eq_div_iff (by positivity : ((10:ℚ)) ^ d ≠ 0)]
    exact hmQ.symm



/-- Every value the float model produces is nonnegative with denominator
dividing the 10-power given by the fraction length. -/
theorem floatOfChars_form (l : PyStr) (q : ℚ) (h : floatOfChars l = some q) :
    0 ≤ q ∧ q.den ∣ 10 ^ fracLen l := by
  rw [floatOfChars] at h
  by_cases hv : validFloat l
  · rw [if_pos hv] at h
    injection h with h
    subst h
    constructor
    · rw [Rat.mkRat_eq_div]
      positivity
    · have hdvd := Rat.den_dvd (digitsToNat (l.filter Char.isDigit) : ℤ)
        ((10 ^ fracLen l : ℕ) : ℤ)
      rw [← Rat.mkRat_eq_divInt] at hdvd
      exact_mod_cast hdvd
  · rw [if_neg hv] at h
    exact absurd h (by simp)

/-- Every value the price parser produces is nonnegative with a denominator
dividing a power of 10. -/
theorem parse_output_form (p : Option PyStr) (q : ℚ)
    (h : parse_price_value p = some q) : 0 ≤ q ∧ ∃ e, q.den ∣ 10 ^ e := by
  cases p with
  | none => simp [parse_price_value] at h
  | some s =>
    by_cases hs : s = []
    · simp [parse_price_value, hs] at h
    · simp only [parse_price_value, if_neg hs] at h
      by_cases hpoa : containsSeq (pyLower s) sPoa
      · rw [if_pos hpoa] at h
        exact absurd h (by simp)
      · rw [if_neg hpoa] at h
        by_cases ht2e : (pyLower s).dropWhile (fun c => !isPriceChar c) = []
        · rw [if_pos ht2e] at h
          exact absurd h (by simp)
        · rw [if_neg ht2e] at h
          obtain ⟨h1, h2⟩ := floatOfChars_form _ q h
          exact ⟨h1, _, h2⟩

/-- Counterexample to Claim C1: `normalize_category` is not idempotent on its
own outputs — `"Furniture"` normalizes to `"furniture"`, but applying the
function to that output yields `"other"` (the lookup keys are the capitalised
display names, not the canonical identifiers). -/
theorem claim1_counterexample :
    normalize_category (some sFurnitureKey) = sFurniture ∧
    normalize_category (some sFurniture) = sOther ∧
    sOther ≠ sFurniture :=
  ⟨by decide, by decide, by decide⟩

/-- Claim C1 (amended): re-running the per-field normalizers on their own
outputs changes no already-normalized description or price value —
`clean_description` returns its non-null outputs unchanged, and
`parse_price_value` applied to the plain decimal rendering of any value it
produced yields that same value — but `normalize_category` is idempotent only
at `"other"`: applied to any of its outputs it returns `"other"`, collapsing
the six canonical identifiers. -/
theorem claim1_amended :
    (∀ c : Option PyStr, normalize_category (some (normalize_category c)) = sOther) ∧
    (∀ (t : Option PyStr) (s : PyStr),
      clean_description t = some s → clean_description (some s) = some s) ∧
    (∀ (p : Option PyStr) (q : ℚ), parse_price_value p = some q →
      parse_price_value (some (renderValue q)) = some q) := by
  refine ⟨normalize_category_reapply, clean_description_idem, ?_⟩
  intro p q hp
  obtain ⟨hq, e, hden⟩ := parse_output_form p q hp
  exact parse_render q hq e hden

/-- Witness for the amended Claim C1 at concrete inputs. -/
theorem claim1_witness :
    normalize_category (some (normalize_category (some sFurnitureKey))) = sOther ∧
    clean_description (some sDescClean) = some sDescClean ∧
    parse_price_value (some (renderValue 1250)) = some 1250 :=
  ⟨claim1_amended.1 (some sFurnitureKey),
   claim1_amended.2.1 (some sDescRaw) sDescClean (by decide),
   claim1_amended.2.2 (some sPrice1250) 1250 (by decide)⟩

end Trackzio
